import Mathlib

/-!
# terrafmt: the format-verb codec (`lib/format/fmtverbs.go`)

A shallow embedding of `FmtVerbBlock`: eight ordered regular-expression
rewrites, a call to the block formatter, and five ordered literal removals.

Texts are lists of characters: a Go string is a sequence of bytes that `regexp`
reads as UTF-8 code points, and every pattern and literal of the function is
ASCII.  The two library routines the function is built from are embedded by
their Go semantics:

* `regexp.ReplaceAllString` : a left-to-right scan that, at each position, asks
  a leftmost-first (greedy, backtracking) matcher for a match, replaces it by
  the expanded template and resumes right after the match;
* `strings.ReplaceAll` : a left-to-right scan replacing non-overlapping
  occurrences of a literal.

The formatter `format.Block` is a parameter returning a text and an optional
error, like the Go function returning `(string, error)`.
-/

namespace Terrafmt

/-- A text: the characters of a Go string. -/
abbrev Text := List Char

/-! ## Regular expressions of the fragment used by `FmtVerbBlock` -/

/-- One element of a pattern: the anchors of multi-line mode, a character
class, or a greedy repetition of a character class. -/
inductive Atom where
  | bol : Atom
  | eol : Atom
  | one : (Char → Bool) → Atom
  | star : (Char → Bool) → Atom

/-- A pattern is a concatenation of atoms. -/
abbrev Regex := List Atom

/-- The class `[sdfgtq]`. -/
def isVerbLetter (c : Char) : Bool :=
  c == 's' || c == 'd' || c == 'f' || c == 'g' || c == 't' || c == 'q'

/-- The class `[\s]`, which in Go is `[\t\n\f\r ]`. -/
def isSpace (c : Char) : Bool :=
  c == '\t' || c == '\n' || c == Char.ofNat 12 || c == '\r' || c == ' '

/-- The class `[\d]`, which in Go is `[0-9]`. -/
def isDigit (c : Char) : Bool :=
  decide ('0' ≤ c) && decide (c ≤ '9')

/-- A literal character. -/
def lit (a : Char) : Atom := Atom.one (fun c => c == a)

/-- The repetition `X+` of a class, which is `XX*`. -/
def plus (p : Char → Bool) : Regex := [Atom.one p, Atom.star p]

/-- Greedy repetition of the class `p` followed by the continuation `k`: take
one more character of the class when the rest then matches, otherwise stop
here.  The flag says whether the position is at the beginning of a line. -/
def starGreedy (p : Char → Bool) (k : Bool → Text → Option Nat) : Bool → Text → Option Nat
  | b, [] => k b []
  | b, c :: s =>
    if p c then
      match starGreedy p k (c == '\n') s with
      | some n => some (n + 1)
      | none => k b (c :: s)
    else k b (c :: s)

/-- Leftmost-first match of a pattern at the current position: the number of
characters of the match, if there is one.  The flag says whether the position
is at the beginning of the text or right after a line feed (`^` of `(?m)`);
`$` of `(?m)` holds at the end of the text and right before a line feed. -/
def matchAt : Regex → Bool → Text → Option Nat
  | [], _, _ => some 0
  | Atom.bol :: r, b, s => if b then matchAt r b s else none
  | Atom.eol :: r, b, s =>
    match s with
    | [] => matchAt r b s
    | c :: _ => if c == '\n' then matchAt r b s else none
  | Atom.one p :: r, _, s =>
    match s with
    | [] => none
    | c :: s => if p c then (matchAt r (c == '\n') s).map (· + 1) else none
  | Atom.star p :: r, b, s => starGreedy p (matchAt r) b s

/-- A replacement template: literal text before and after `$0`. -/
structure Template where
  before : Text
  after : Text

/-- The expansion of a template on a matched text. -/
def Template.expand (t : Template) (m : Text) : Text := t.before ++ m ++ t.after

/-- The scan of `ReplaceAllString`.  `skip` counts the characters of the
current match that are still to be passed over (they were already copied into
the output as `$0`); the flag says whether the position is at the beginning of
a line.  An empty match is replaced and the scan moves on by one character;
the patterns of `FmtVerbBlock` all hold a `%` and never match the empty text
(`matchAt_pos`). -/
def rewriteGo (re : Regex) (t : Template) : Nat → Bool → Text → Text
  | _, b, [] =>
    match matchAt re b [] with
    | some _ => t.expand []
    | none => []
  | skip + 1, _, c :: s => rewriteGo re t skip (c == '\n') s
  | 0, b, c :: s =>
    match matchAt re b (c :: s) with
    | some 0 => t.expand [] ++ c :: rewriteGo re t 0 (c == '\n') s
    | some (n + 1) => t.expand ((c :: s).take (n + 1)) ++ rewriteGo re t n (c == '\n') s
    | none => c :: rewriteGo re t 0 (c == '\n') s

/-- `regexp.MustCompile(re).ReplaceAllString(b, t)`. -/
def replaceAllString (re : Regex) (t : Template) (b : Text) : Text :=
  rewriteGo re t 0 true b

/-- The scan of `strings.ReplaceAll` for a non-empty `old`; `skip` counts the
characters of the current occurrence still to be passed over. -/
def replaceGo (old new : Text) : Nat → Text → Text
  | _, [] => []
  | skip + 1, _ :: s => replaceGo old new skip s
  | 0, c :: s =>
    if old.isPrefixOf (c :: s) then new ++ replaceGo old new (old.length - 1) s
    else c :: replaceGo old new 0 s

/-- `strings.ReplaceAll(s, old, new)` for a non-empty `old`. -/
def replaceAll (s old new : Text) : Text := replaceGo old new 0 s

/-! ## The patterns, templates and literals of `FmtVerbBlock` -/

/-- The pattern `(?m:^%[sdfgtq]$)`. -/
def reBareLine : Regex := [Atom.bol, lit '%', Atom.one isVerbLetter, Atom.eol]

/-- The pattern `(?m:^[\s]*%[sdfgtq]$)`. -/
def reBareLineWs : Regex :=
  [Atom.bol, Atom.star isSpace, lit '%', Atom.one isVerbLetter, Atom.eol]

/-- The pattern `(?m:^%\[[\d]+\][sdfgtq]$)`. -/
def reIdxLine : Regex :=
  [Atom.bol, lit '%', lit '['] ++ plus isDigit ++ [lit ']', Atom.one isVerbLetter, Atom.eol]

/-- The pattern `(?m:^[\s]*%\[[\d]+\][sdfgtq]$)`. -/
def reIdxLineWs : Regex :=
  [Atom.bol, Atom.star isSpace, lit '%', lit '['] ++ plus isDigit ++
    [lit ']', Atom.one isVerbLetter, Atom.eol]

/-- The pattern `(?m:\[%[sdfgtq]\]$)`. -/
def reBareList : Regex := [lit '[', lit '%', Atom.one isVerbLetter, lit ']', Atom.eol]

/-- The pattern `(?m:\[%\[[\d]+\][sdfgtq]\]$)`. -/
def reIdxList : Regex :=
  [lit '[', lit '%', lit '['] ++ plus isDigit ++
    [lit ']', Atom.one isVerbLetter, lit ']', Atom.eol]

/-- The pattern `(?m:%[sdfgtq]$)`. -/
def reBareValue : Regex := [lit '%', Atom.one isVerbLetter, Atom.eol]

/-- The pattern `(?m:%\[[\d]+\][sdfgtq]$)`. -/
def reIdxValue : Regex :=
  [lit '%', lit '['] ++ plus isDigit ++ [lit ']', Atom.one isVerbLetter, Atom.eol]

/-- The constant `fmtVerbCompatibilityDelimiter` of line 9, `@@_@@ TFMT`; the
function spells it out in its templates and literals. -/
def fmtVerbCompatibilityDelimiter : Text := "@@_@@ TFMT".toList

/-- The literal `#@@_@@ TFMT:`. -/
def commentOpen : Text := "#@@_@@ TFMT:".toList

/-- The literal `["@@_@@ TFMT:`. -/
def listOpen : Text := "[\"@@_@@ TFMT:".toList

/-- The literal `:TFMT @@_@@"]`. -/
def listClose : Text := ":TFMT @@_@@\"]".toList

/-- The literal `"@@_@@ TFMT:`. -/
def valueOpen : Text := "\"@@_@@ TFMT:".toList

/-- The literal `:TFMT @@_@@"`. -/
def valueClose : Text := ":TFMT @@_@@\"".toList

/-- The sentinel text `@@_@@`. -/
def sentinel : Text := "@@_@@".toList

/-- The template `#@@_@@ TFMT:$0`. -/
def tmplComment : Template := ⟨commentOpen, []⟩

/-- The template `["@@_@@ TFMT:$0:TFMT @@_@@"]`. -/
def tmplList : Template := ⟨listOpen, listClose⟩

/-- The template `"@@_@@ TFMT:$0:TFMT @@_@@"`. -/
def tmplValue : Template := ⟨valueOpen, valueClose⟩

/-! ## `FmtVerbBlock` -/

/-- The bare-line rewrites (lines 17-22). -/
def escapeBare (b : Text) : Text :=
  let b := replaceAllString reBareLine tmplComment b
  let b := replaceAllString reBareLineWs tmplComment b
  let b := replaceAllString reIdxLine tmplComment b
  replaceAllString reIdxLineWs tmplComment b

/-- The list rewrites (lines 25 and 28). -/
def escapeList (b : Text) : Text :=
  let b := replaceAllString reBareList tmplList b
  replaceAllString reIdxList tmplList b

/-- The assigned-value rewrites (lines 31 and 34). -/
def escapeValue (b : Text) : Text :=
  let b := replaceAllString reBareValue tmplValue b
  replaceAllString reIdxValue tmplValue b

/-- The forward transform: the eight rewrites of lines 17-34, in order. -/
def Escape (b : Text) : Text := escapeValue (escapeList (escapeBare b))

/-- The reverse transform: the five removals of lines 42-49, in order. -/
def Unescape (fb : Text) : Text :=
  let fb := replaceAll fb commentOpen []
  let fb := replaceAll fb listOpen []
  let fb := replaceAll fb listClose []
  let fb := replaceAll fb valueOpen []
  replaceAll fb valueClose []

/-- `FmtVerbBlock`, with the formatter `Block` as a parameter: escape, format,
return the formatter's text and error when it fails, unescape otherwise. -/
def FmtVerbBlock {E : Type} (Block : Text → Text × Option E) (b : Text) : Text × Option E :=
  let b := Escape b
  match Block b with
  | (fb, some err) => (fb, some err)
  | (fb, none) => (Unescape fb, none)

/-- The formatter that returns its input and never fails. -/
def identityBlock (b : Text) : Text × Option Unit := (b, none)

/-- The removals in the other order: the generic quoted-value removals before
the list-context removals. -/
def unescapeGenericFirst (fb : Text) : Text :=
  let fb := replaceAll fb commentOpen []
  let fb := replaceAll fb valueOpen []
  let fb := replaceAll fb valueClose []
  let fb := replaceAll fb listOpen []
  replaceAll fb listClose []

/-- The lines of a text, split at line feeds. -/
def splitLines : Text → List Text
  | [] => [[]]
  | c :: s =>
    match splitLines s with
    | [] => [[c]]
    | l :: ls => if c == '\n' then [] :: l :: ls else (c :: l) :: ls

/-- A line comment: the first character that is not white space is `#`. -/
def isCommentLine (l : Text) : Bool := (l.dropWhile isSpace).head? == some '#'

/-- The idempotence contract of a formatter: formatting a text it has produced
succeeds and changes nothing. -/
def Idempotent {E : Type} (Block : Text → Text × Option E) : Prop :=
  ∀ x y, Block x = (y, none) → Block y = (y, none)

/-- A formatter with two canonical forms: one for the texts that hold the
sentinel and one for the others. -/
def canonBlock (x : Text) : Text × Option Unit :=
  if sentinel <:+: x then ("x = \"@@_@@ TFMT:%s:TFMT @@_@@\" # c".toList, none)
  else ("# c".toList, none)

/-- A formatter that deletes every carriage return. -/
def stripBlock (x : Text) : Text × Option Unit := (x.filter (fun c => c != '\r'), none)

/-- A formatter that indents a text starting with a comment by two blanks. -/
def indentBlock (x : Text) : Text × Option Unit :=
  if x.head? = some '#' then (' ' :: ' ' :: x, none) else (x, none)

/-- The `fmt` consumer's test `fb != b` that counts a block as formatted. -/
def blockChanged (fb b : Text) : Bool := fb != b

/-- A bare verb `%<letter>`. -/
def bareVerb (l : Char) : Text := ['%', l]

/-- An indexed verb `%[<digits>]<letter>`. -/
def idxVerb (ds : Text) (l : Char) : Text := '%' :: '[' :: ds ++ [']', l]

/-- A bare verb with a letter of `[sdfgtq]`. -/
def IsBare (v : Text) : Prop := ∃ l, isVerbLetter l = true ∧ v = bareVerb l

/-- An indexed verb with a non-empty index of digits and a letter of `[sdfgtq]`. -/
def IsIdx (v : Text) : Prop :=
  ∃ ds l, ds ≠ [] ∧ (∀ d ∈ ds, isDigit d = true) ∧ isVerbLetter l = true ∧ v = idxVerb ds l

/-- A recognized verb: bare or indexed. -/
def IsVerb (v : Text) : Prop := IsBare v ∨ IsIdx v

/-- A text between square brackets. -/
def bracketed (v : Text) : Text := '[' :: v ++ [']']

/-- The sentinel text that opens a wrapped verb, `@@_@@ TFMT:`. -/
def wrapOpen : Text := "@@_@@ TFMT:".toList

/-- The sentinel text that closes a wrapped verb, `:TFMT @@_@@`. -/
def wrapClose : Text := ":TFMT @@_@@".toList

/-- A text between double quotes: a string literal. -/
def quoted (s : Text) : Text := '"' :: s ++ ['"']

/-- A formatter that rejects every text: it returns the empty text and an
error message. -/
def failBlock (_ : Text) : Text × Option String := ([], some "syntax error")

/-! ## Definitions used in the proofs -/

/-- The pattern has a position that only the character `a` can fill. -/
def Demands (a : Char) : Regex → Prop
  | [] => False
  | Atom.one p :: r => (∀ c, p c = true → c = a) ∨ Demands a r
  | Atom.bol :: r => Demands a r
  | Atom.eol :: r => Demands a r
  | Atom.star _ :: r => Demands a r

/-- The flag after a text has been passed over: whether its last character is
a line feed, or the flag before when the text is empty. -/
def flagAfter (b : Bool) : Text → Bool
  | [] => b
  | c :: s => flagAfter (c == '\n') s

/-- The texts a pattern can match: `Matches re b m rest` says that `m`,
followed in the text by `rest` and starting at a position with flag `b`, is
made of the pattern's atoms in order. -/
def Matches : Regex → Bool → Text → Text → Prop
  | [], _, m, _ => m = []
  | Atom.bol :: r, b, m, rest => b = true ∧ Matches r b m rest
  | Atom.eol :: r, b, m, rest => (∀ c ∈ (m ++ rest).head?, c = '\n') ∧ Matches r b m rest
  | Atom.one p :: r, _, m, rest =>
    ∃ c m', m = c :: m' ∧ p c = true ∧ Matches r (c == '\n') m' rest
  | Atom.star p :: r, b, m, rest =>
    ∃ m1 m2, m = m1 ++ m2 ∧ (∀ c ∈ m1, p c = true) ∧ Matches r (flagAfter b m1) m2 rest

/-- The end of a line: the end of the text or a line feed. -/
def AtEol (rest : Text) : Prop := ∀ c ∈ rest.head?, c = '\n'

/-- No class of the pattern holds the line feed: a match lies within a line. -/
def NLFree : Regex → Prop
  | [] => True
  | Atom.one p :: r => p '\n' = false ∧ NLFree r
  | Atom.star p :: r => p '\n' = false ∧ NLFree r
  | Atom.bol :: r => NLFree r
  | Atom.eol :: r => NLFree r

/-- `Ins b s t`: the text `t` is the text `s` with comment markers
`#@@_@@ TFMT:` put in at beginnings of lines.  The flag says whether the
current position of `s` is at the beginning of a line. -/
inductive Ins : Bool → Text → Text → Prop where
  | nil (b : Bool) : Ins b [] []
  | copy (b : Bool) (c : Char) (s t : Text) : Ins (c == '\n') s t → Ins b (c :: s) (c :: t)
  | mark (s t : Text) : Ins true s t → Ins true s (commentOpen ++ t)

/-- A run of `j` comment markers. -/
def markers : Nat → Text
  | 0 => []
  | j + 1 => commentOpen ++ markers j

/-- A pattern whose matches are the texts of `F` standing at the end of a line. -/
structure TailPattern (re : Regex) (F : Text → Prop) : Prop where
  sound : ∀ b s n, matchAt re b s = some n →
    ∃ m rest, s = m ++ rest ∧ m.length = n ∧ F m ∧ AtEol rest
  ne : ∀ m, F m → m ≠ []

/-- A sentinel-free proper beginning of `old` can stand right before the
character `c0`, so that an occurrence of `old` could start before a text that
begins with `c0` and run into it. -/
def Clash (old : Text) (c0 : Char) : Prop :=
  ∃ k, k < old.length ∧ (0 < k ∧ old.get? k = some c0 ∧ ¬ sentinel <:+: old.take k)

instance (old : Text) (c0 : Char) : Decidable (Clash old c0) := by
  unfold Clash; infer_instance

/-- The characters a recognized verb is made of. -/
def verbChar (c : Char) : Bool :=
  c == '%' || c == '[' || c == ']' || isDigit c || isVerbLetter c

/-- The forms an escaped line can take after the list and assigned-value
rewrites: unchanged, or with the bracketed verb or the verb that ends it
wrapped. -/
inductive LineShape (u : Text) : Text → Prop where
  | plain : LineShape u u
  | list (x v : Text) : u = x ++ bracketed v → IsVerb v →
      LineShape u (x ++ listOpen ++ bracketed v ++ listClose)
  | value (x v : Text) : u = x ++ v → IsVerb v →
      LineShape u (x ++ valueOpen ++ v ++ valueClose)

/-- The texts the list and assigned-value patterns match: a verb, or a verb
between square brackets. -/
def IsTail (m : Text) : Prop := IsVerb m ∨ ∃ v, IsVerb v ∧ m = bracketed v

/-- A line made of white space and one verb. -/
def IsBareLine (m : Text) : Prop :=
  ∃ w v, (∀ c ∈ w, isSpace c = true) ∧ IsVerb v ∧ m = w ++ v

/-! ## Lemmas on the scans -/

theorem fmtVerbBlock_ok {E : Type} (Block : Text → Text × Option E) (b fb : Text)
    (h : Block (Escape b) = (fb, none)) : FmtVerbBlock Block b = (Unescape fb, none) := by
  simp [FmtVerbBlock, h]

theorem fmtVerbBlock_err {E : Type} (Block : Text → Text × Option E) (b fb : Text) (e : E)
    (h : Block (Escape b) = (fb, some e)) : FmtVerbBlock Block b = (fb, some e) := by
  simp [FmtVerbBlock, h]

theorem starGreedy_none_of_not_mem (a : Char) (p : Char → Bool) (k : Bool → Text → Option Nat)
    (hk : ∀ b s, a ∉ s → k b s = none) :
    ∀ (s : Text) (b : Bool), a ∉ s → starGreedy p k b s = none := by
  intro s
  induction s with
  | nil => intro b h; simpa [starGreedy] using hk b [] h
  | cons c s ih =>
    intro b h
    have hs : a ∉ s := fun hm => h (List.mem_cons_of_mem _ hm)
    simp only [starGreedy]
    split
    · rw [ih _ hs]; exact hk b _ h
    · exact hk b _ h

theorem matchAt_none_of_not_mem (a : Char) :
    ∀ (re : Regex), Demands a re → ∀ (b : Bool) (s : Text), a ∉ s → matchAt re b s = none := by
  intro re
  induction re with
  | nil => intro h; exact absurd h (by simp [Demands])
  | cons hd r ih =>
    intro h b s hs
    cases hd with
    | bol =>
      simp only [matchAt]
      split
      · exact ih h b s hs
      · rfl
    | eol =>
      cases s with
      | nil => simpa [matchAt] using ih h b [] hs
      | cons c s =>
        simp only [matchAt]
        split
        · exact ih h b _ hs
        · rfl
    | one p =>
      cases s with
      | nil => simp [matchAt]
      | cons c s =>
        simp only [matchAt]
        split
        · rename_i hp
          rcases h with h | h
          · exact absurd (h c hp) (fun hc => hs (by simp [hc]))
          · rw [ih h _ s (fun hm => hs (List.mem_cons_of_mem _ hm))]; rfl
        · rfl
    | star p =>
      simp only [matchAt]
      exact starGreedy_none_of_not_mem a p _ (fun b s hs => ih h b s hs) s b hs

theorem rewriteGo_of_not_mem (a : Char) (re : Regex) (t : Template) (h : Demands a re) :
    ∀ (s : Text) (b : Bool), a ∉ s → rewriteGo re t 0 b s = s := by
  intro s
  induction s with
  | nil => intro b hs; simp [rewriteGo, matchAt_none_of_not_mem a re h b [] hs]
  | cons c s ih =>
    intro b hs
    simp only [rewriteGo, matchAt_none_of_not_mem a re h b _ hs]
    rw [ih _ (fun hm => hs (List.mem_cons_of_mem _ hm))]

theorem demands_reBareLine : Demands '%' reBareLine := by simp [Demands, reBareLine, lit]
theorem demands_reBareLineWs : Demands '%' reBareLineWs := by simp [Demands, reBareLineWs, lit]
theorem demands_reIdxLine : Demands '%' reIdxLine := by simp [Demands, reIdxLine, lit, plus]
theorem demands_reIdxLineWs : Demands '%' reIdxLineWs := by simp [Demands, reIdxLineWs, lit, plus]
theorem demands_reBareList : Demands '%' reBareList := by simp [Demands, reBareList, lit]
theorem demands_reIdxList : Demands '%' reIdxList := by simp [Demands, reIdxList, lit, plus]
theorem demands_reBareValue : Demands '%' reBareValue := by simp [Demands, reBareValue, lit]
theorem demands_reIdxValue : Demands '%' reIdxValue := by simp [Demands, reIdxValue, lit, plus]

theorem escape_of_no_percent (b : Text) (h : '%' ∉ b) : Escape b = b := by
  simp only [Escape, escapeValue, escapeList, escapeBare, replaceAllString]
  rw [rewriteGo_of_not_mem '%' _ _ demands_reBareLine b true h,
    rewriteGo_of_not_mem '%' _ _ demands_reBareLineWs b true h,
    rewriteGo_of_not_mem '%' _ _ demands_reIdxLine b true h,
    rewriteGo_of_not_mem '%' _ _ demands_reIdxLineWs b true h,
    rewriteGo_of_not_mem '%' _ _ demands_reBareList b true h,
    rewriteGo_of_not_mem '%' _ _ demands_reIdxList b true h,
    rewriteGo_of_not_mem '%' _ _ demands_reBareValue b true h,
    rewriteGo_of_not_mem '%' _ _ demands_reIdxValue b true h]

theorem isPrefixOf_iff (o s : Text) : o.isPrefixOf s = true ↔ o <+: s := by
  exact List.isPrefixOf_iff_prefix

/-- No occurrence of `old`: the scan copies the text. -/
theorem replaceGo_of_absent (old new : Text) :
    ∀ (s : Text), ¬ old <:+: s → replaceGo old new 0 s = s := by
  intro s
  induction s with
  | nil => intro _; simp [replaceGo]
  | cons c s ih =>
    intro h
    have h1 : ¬ old <+: c :: s := fun hp => h hp.isInfix
    have h2 : ¬ old <:+: s := fun hi => h (hi.trans (List.suffix_cons c s).isInfix)
    have h3 : old.isPrefixOf (c :: s) = false := by
      rw [Bool.eq_false_iff]; intro hp; exact h1 ((isPrefixOf_iff _ _).1 hp)
    simp only [replaceGo, h3]
    simp [ih h2]

theorem not_infix_of_sentinel {old s : Text} (ho : sentinel <:+: old) (h : ¬ sentinel <:+: s) :
    ¬ old <:+: s := fun hi => h (ho.trans hi)

theorem sentinel_infix_commentOpen : sentinel <:+: commentOpen := by decide
theorem sentinel_infix_listOpen : sentinel <:+: listOpen := by decide
theorem sentinel_infix_listClose : sentinel <:+: listClose := by decide
theorem sentinel_infix_valueOpen : sentinel <:+: valueOpen := by decide
theorem sentinel_infix_valueClose : sentinel <:+: valueClose := by decide

theorem unescape_of_no_sentinel (fb : Text) (h : ¬ sentinel <:+: fb) : Unescape fb = fb := by
  simp only [Unescape, replaceAll]
  rw [replaceGo_of_absent _ _ fb (not_infix_of_sentinel sentinel_infix_commentOpen h),
    replaceGo_of_absent _ _ fb (not_infix_of_sentinel sentinel_infix_listOpen h),
    replaceGo_of_absent _ _ fb (not_infix_of_sentinel sentinel_infix_listClose h),
    replaceGo_of_absent _ _ fb (not_infix_of_sentinel sentinel_infix_valueOpen h),
    replaceGo_of_absent _ _ fb (not_infix_of_sentinel sentinel_infix_valueClose h)]


/-! ## Soundness of the matcher -/

theorem starGreedy_sound (p : Char → Bool) (r : Regex)
    (hk : ∀ (b : Bool) (s : Text) (n : Nat), matchAt r b s = some n →
      ∃ m rest, s = m ++ rest ∧ m.length = n ∧ Matches r b m rest) :
    ∀ (s : Text) (b : Bool) (n : Nat), starGreedy p (matchAt r) b s = some n →
      ∃ m rest, s = m ++ rest ∧ m.length = n ∧ Matches (Atom.star p :: r) b m rest := by
  have base : ∀ (s : Text) (b : Bool) (n : Nat), matchAt r b s = some n →
      ∃ m rest, s = m ++ rest ∧ m.length = n ∧ Matches (Atom.star p :: r) b m rest := by
    intro s b n h
    obtain ⟨m, rest, hs, hn, hm⟩ := hk b s n h
    exact ⟨m, rest, hs, hn, [], m, rfl, by simp, by simpa [flagAfter] using hm⟩
  intro s
  induction s with
  | nil => intro b n h; exact base [] b n (by simpa [starGreedy] using h)
  | cons c s ih =>
    intro b n h
    simp only [starGreedy] at h
    split at h
    · rename_i hp
      split at h
      · rename_i n' hn'
        obtain ⟨m, rest, hs, hlen, m1, m2, hm, hall, hmat⟩ := ih _ _ hn'
        have hn : n = n' + 1 := by simpa using h.symm
        refine ⟨c :: m, rest, by simp [hs], by simp [hlen, hn], c :: m1, m2, by simp [hm], ?_, ?_⟩
        · intro d hd
          rcases List.mem_cons.1 hd with rfl | hd
          · exact hp
          · exact hall d hd
        · simpa [flagAfter] using hmat
      · exact base _ b n h
    · exact base _ b n h

theorem matchAt_sound : ∀ (re : Regex) (b : Bool) (s : Text) (n : Nat),
    matchAt re b s = some n → ∃ m rest, s = m ++ rest ∧ m.length = n ∧ Matches re b m rest := by
  intro re
  induction re with
  | nil =>
    intro b s n h
    have hn : n = 0 := by simpa [matchAt] using h.symm
    exact ⟨[], s, rfl, by simp [hn], by simp [Matches]⟩
  | cons hd r ih =>
    intro b s n h
    cases hd with
    | bol =>
      simp only [matchAt] at h
      split at h
      · rename_i hb
        obtain ⟨m, rest, hs, hn, hm⟩ := ih b s n h
        exact ⟨m, rest, hs, hn, hb, hm⟩
      · simp at h
    | eol =>
      cases s with
      | nil =>
        simp only [matchAt] at h
        obtain ⟨m, rest, hs, hn, hm⟩ := ih b [] n h
        exact ⟨m, rest, hs, hn, by rw [← hs]; simp, hm⟩
      | cons c s =>
        simp only [matchAt] at h
        split at h
        · rename_i hc
          obtain ⟨m, rest, hs, hn, hm⟩ := ih b _ n h
          refine ⟨m, rest, hs, hn, ?_, hm⟩
          rw [← hs]
          simpa using hc
        · simp at h
    | one p =>
      cases s with
      | nil => simp [matchAt] at h
      | cons c s =>
        simp only [matchAt] at h
        split at h
        · rename_i hp
          rcases hr : matchAt r (c == '\n') s with _ | n'
          · simp [hr] at h
          · obtain ⟨m, rest, hs, hn, hm⟩ := ih _ _ _ hr
            have hn' : n = n' + 1 := by simpa [hr] using h.symm
            exact ⟨c :: m, rest, by simp [hs], by simp [hn, hn'], c, m, rfl, hp, hm⟩
        · simp at h
    | star p =>
      simp only [matchAt] at h
      exact starGreedy_sound p r ih s b n h



/-! ## The texts matched by the eight patterns -/

theorem matches_reBareValue {b : Bool} {m rest : Text} (h : Matches reBareValue b m rest) :
    IsBare m ∧ AtEol rest := by
  simp only [reBareValue, lit, Matches] at h
  obtain ⟨c, m1, rfl, hc, l, m2, rfl, hl, he, rfl⟩ := h
  have hc' : c = '%' := by simpa using hc
  subst hc'
  exact ⟨⟨l, hl, rfl⟩, by simpa [AtEol] using he⟩

theorem matches_reIdxValue {b : Bool} {m rest : Text} (h : Matches reIdxValue b m rest) :
    IsIdx m ∧ AtEol rest := by
  simp only [reIdxValue, lit, plus, Matches, List.cons_append, List.nil_append] at h
  obtain ⟨c, m1, rfl, hc, c2, m2, rfl, hc2, d, m3, rfl, hd, ds, m4, rfl, hds,
    c3, m5, rfl, hc3, l, m6, rfl, hl, he, rfl⟩ := h
  have hc' : c = '%' := by simpa using hc
  have hc2' : c2 = '[' := by simpa using hc2
  have hc3' : c3 = ']' := by simpa using hc3
  subst hc' hc2' hc3'
  refine ⟨⟨d :: ds, l, by simp, ?_, hl, by simp [idxVerb]⟩, by simpa [AtEol] using he⟩
  intro x hx
  rcases List.mem_cons.1 hx with rfl | hx
  · exact hd
  · exact hds x hx

theorem matches_reBareList {b : Bool} {m rest : Text} (h : Matches reBareList b m rest) :
    (∃ v, IsBare v ∧ m = bracketed v) ∧ AtEol rest := by
  simp only [reBareList, lit, Matches] at h
  obtain ⟨c0, m0, rfl, hc0, c, m1, rfl, hc, l, m2, rfl, hl, c4, m7, rfl, hc4, he, rfl⟩ := h
  have hc0' : c0 = '[' := by simpa using hc0
  have hc' : c = '%' := by simpa using hc
  have hc4' : c4 = ']' := by simpa using hc4
  subst hc0' hc' hc4'
  exact ⟨⟨bareVerb l, ⟨l, hl, rfl⟩, rfl⟩, by simpa [AtEol] using he⟩

theorem matches_reIdxList {b : Bool} {m rest : Text} (h : Matches reIdxList b m rest) :
    (∃ v, IsIdx v ∧ m = bracketed v) ∧ AtEol rest := by
  simp only [reIdxList, lit, plus, Matches, List.cons_append, List.nil_append] at h
  obtain ⟨c0, m0, rfl, hc0, c, m1, rfl, hc, c2, m2, rfl, hc2, d, m3, rfl, hd, ds, m4, rfl, hds,
    c3, m5, rfl, hc3, l, m6, rfl, hl, c4, m7, rfl, hc4, he, rfl⟩ := h
  have hc0' : c0 = '[' := by simpa using hc0
  have hc' : c = '%' := by simpa using hc
  have hc2' : c2 = '[' := by simpa using hc2
  have hc3' : c3 = ']' := by simpa using hc3
  have hc4' : c4 = ']' := by simpa using hc4
  subst hc0' hc' hc2' hc3' hc4'
  refine ⟨⟨idxVerb (d :: ds) l, ⟨d :: ds, l, by simp, ?_, hl, rfl⟩, by simp [idxVerb, bracketed]⟩,
    by simpa [AtEol] using he⟩
  intro x hx
  rcases List.mem_cons.1 hx with rfl | hx
  · exact hd
  · exact hds x hx


/-! ## The scan of `ReplaceAllString` -/

theorem matchAt_le {re : Regex} {b : Bool} {s : Text} {n : Nat}
    (h : matchAt re b s = some n) : n ≤ s.length := by
  obtain ⟨m, rest, hs, hn, _⟩ := matchAt_sound re b s n h
  rw [hs, ← hn]; simp

theorem rewriteGo_skip (re : Regex) (t : Template) :
    ∀ (m : Text) (b : Bool) (rest : Text),
      rewriteGo re t m.length b (m ++ rest) = rewriteGo re t 0 (flagAfter b m) rest := by
  intro m
  induction m with
  | nil => intro b rest; simp [flagAfter]
  | cons c m ih =>
    intro b rest
    simp only [List.length_cons, List.cons_append, rewriteGo, flagAfter]
    exact ih _ rest

theorem rewriteGo_cons_some (re : Regex) (t : Template) (c : Char) (s : Text) (b : Bool)
    (n : Nat) (h : matchAt re b (c :: s) = some (n + 1)) :
    rewriteGo re t 0 b (c :: s) =
      t.expand ((c :: s).take (n + 1)) ++ rewriteGo re t n (c == '\n') s := by
  simp [rewriteGo, h]

/-- A match of the non-empty text `m` at the current position is replaced by the
expanded template, and the scan resumes after `m`. -/
theorem rewriteGo_match (re : Regex) (t : Template) (m rest : Text) (b : Bool)
    (hm : m ≠ []) (h : matchAt re b (m ++ rest) = some m.length) :
    rewriteGo re t 0 b (m ++ rest) =
      t.before ++ m ++ t.after ++ rewriteGo re t 0 (flagAfter b m) rest := by
  cases m with
  | nil => exact absurd rfl hm
  | cons c m =>
    rw [List.cons_append] at h ⊢
    rw [List.length_cons] at h
    rw [rewriteGo_cons_some re t c _ b m.length h, rewriteGo_skip re t m _ rest]
    simp [Template.expand, flagAfter]

theorem rewriteGo_succ_cons (re : Regex) (t : Template) (k : Nat) (b : Bool) (c : Char)
    (s : Text) : rewriteGo re t (k + 1) b (c :: s) = rewriteGo re t k (c == '\n') s := by
  simp [rewriteGo]

theorem rewriteGo_cons_none (re : Regex) (t : Template) (c : Char) (s : Text) (b : Bool)
    (h : matchAt re b (c :: s) = none) :
    rewriteGo re t 0 b (c :: s) = c :: rewriteGo re t 0 (c == '\n') s := by
  simp [rewriteGo, h]

/-- No match can start at a character of the prefix `x`: the scan copies it. -/
theorem rewriteGo_copy (re : Regex) (t : Template) (rest : Text) :
    ∀ (x : Text) (b : Bool),
      (∀ x1 c x2, x = x1 ++ c :: x2 → matchAt re (flagAfter b x1) (c :: x2 ++ rest) = none) →
      rewriteGo re t 0 b (x ++ rest) = x ++ rewriteGo re t 0 (flagAfter b x) rest := by
  intro x
  induction x with
  | nil => intro b _; simp [flagAfter]
  | cons c x ih =>
    intro b h
    have h0 := h [] c x rfl
    simp only [flagAfter] at h0
    simp only [List.cons_append]
    rw [rewriteGo_cons_none re t c _ b (by simpa using h0)]
    simp only [flagAfter]
    rw [ih (c == '\n')]
    intro x1 d x2 hx
    have := h (c :: x1) d x2 (by simp [hx])
    simpa [flagAfter] using this


/-! ## Patterns whose matches lie within a line -/

theorem starGreedy_cons (p : Char → Bool) (k : Bool → Text → Option Nat) (b : Bool) (c : Char)
    (s : Text) :
    starGreedy p k b (c :: s) =
      if p c then
        match starGreedy p k (c == '\n') s with
        | some n => some (n + 1)
        | none => k b (c :: s)
      else k b (c :: s) := by
  simp [starGreedy]

theorem starGreedy_local (p : Char → Bool) (k : Bool → Text → Option Nat) (v : Text)
    (hp : p '\n' = false)
    (hk : ∀ (q : Text) (b : Bool), '\n' ∉ q → k b (q ++ '\n' :: v) = k b q) :
    ∀ (q : Text) (b : Bool), '\n' ∉ q →
      starGreedy p k b (q ++ '\n' :: v) = starGreedy p k b q := by
  intro q
  induction q with
  | nil =>
    intro b _
    simpa [starGreedy, hp] using hk [] b (by simp)
  | cons c q ih =>
    intro b hq
    have hq' : '\n' ∉ q := fun hm => hq (List.mem_cons_of_mem _ hm)
    have := hk (c :: q) b hq
    rw [List.cons_append] at this ⊢
    rw [starGreedy_cons, starGreedy_cons, ih _ hq', this]

theorem matchAt_local (v : Text) : ∀ (re : Regex), NLFree re → ∀ (q : Text) (b : Bool),
    '\n' ∉ q → matchAt re b (q ++ '\n' :: v) = matchAt re b q := by
  intro re
  induction re with
  | nil => intro _ q b _; simp [matchAt]
  | cons hd r ih =>
    intro hN q b hq
    cases hd with
    | bol =>
      simp only [matchAt]
      rw [ih hN q b hq]
    | eol =>
      cases q with
      | nil =>
        have := ih hN [] b (by simp)
        simp only [List.nil_append] at this
        simp [matchAt, this]
      | cons c q =>
        have hc : c ≠ '\n' := fun h => hq (by simp [h])
        simp [matchAt, hc]
    | one p =>
      cases q with
      | nil => simp [matchAt, hN.1]
      | cons c q =>
        have hq' : '\n' ∉ q := fun hm => hq (List.mem_cons_of_mem _ hm)
        simp only [List.cons_append, matchAt]
        rw [ih hN.2 q _ hq']
    | star p =>
      simp only [matchAt]
      exact starGreedy_local p _ v hN.1 (fun q b hq => ih hN.2 q b hq) q b hq

theorem tailPattern_nil {re : Regex} {F : Text → Prop} (hT : TailPattern re F) (b : Bool) :
    matchAt re b [] = none := by
  rcases h : matchAt re b [] with _ | n
  · rfl
  · obtain ⟨m, rest, hs, _, hF, _⟩ := hT.sound b [] n h
    have hm : m = [] := by
      have := congrArg List.length hs
      simp at this
      exact List.eq_nil_of_length_eq_zero (by omega)
    exact absurd hm (hT.ne m hF)

/-- The scan of a line followed by a line feed: the line is rewritten on its
own, and the scan starts afresh after the line feed. -/
theorem rewriteGo_line_cons (re : Regex) (t : Template) (v : Text) (hN : NLFree re)
    (hnil : ∀ b, matchAt re b [] = none) :
    ∀ (u : Text), '\n' ∉ u → ∀ (skip : Nat) (b : Bool), skip ≤ u.length →
      rewriteGo re t skip b (u ++ '\n' :: v) =
        rewriteGo re t skip b u ++ '\n' :: rewriteGo re t 0 true v := by
  intro u
  induction u with
  | nil =>
    intro _ skip b hs
    have hs0 : skip = 0 := by simpa using hs
    subst hs0
    have h1 : matchAt re b ('\n' :: v) = none := by
      have := matchAt_local v re hN [] b (by simp)
      simpa [hnil b] using this
    rw [List.nil_append, rewriteGo_cons_none re t _ _ b h1]
    simp [rewriteGo, hnil b]
  | cons c u ih =>
    intro hu skip b hs
    have hu' : '\n' ∉ u := fun hm => hu (List.mem_cons_of_mem _ hm)
    rw [List.cons_append]
    cases skip with
    | succ k =>
      simp only [rewriteGo]
      exact ih hu' k _ (by simpa using hs)
    | zero =>
      have hl := matchAt_local v re hN (c :: u) b hu
      rw [List.cons_append] at hl
      rcases hm : matchAt re b (c :: u) with _ | n
      · rw [hm] at hl
        rw [rewriteGo_cons_none re t c _ b hl, rewriteGo_cons_none re t c _ b hm,
          ih hu' 0 _ (by simp)]
        simp
      · rw [hm] at hl
        cases n with
        | zero =>
          simp only [rewriteGo, hl, hm]
          rw [ih hu' 0 _ (by simp)]
          simp
        | succ n =>
          have hle := matchAt_le hm
          simp only [List.length_cons] at hle
          rw [rewriteGo_cons_some re t c _ b n hl, rewriteGo_cons_some re t c _ b n hm,
            ih hu' n _ (by omega)]
          have ht : List.take (n + 1) (c :: (u ++ '\n' :: v)) = List.take (n + 1) (c :: u) := by
            simp only [List.take_succ_cons]
            rw [List.take_append_of_le_length (by omega)]
          rw [ht]
          simp

theorem atEol_nil_of_not_mem {m rest : Text} (he : AtEol rest) (h : '\n' ∉ m ++ rest) :
    rest = [] := by
  cases rest with
  | nil => rfl
  | cons c r =>
    have : c = '\n' := he c (by simp)
    exact absurd (by simp [this]) h

/-- The scan of a line: either nothing matches, or exactly one match, which
ends the line, is wrapped by the template. -/
theorem rewriteGo_line (re : Regex) (t : Template) (F : Text → Prop) (hT : TailPattern re F) :
    ∀ (u : Text) (b : Bool), '\n' ∉ u →
      rewriteGo re t 0 b u = u ∨
      ∃ x m, u = x ++ m ∧ F m ∧ rewriteGo re t 0 b u = x ++ t.before ++ m ++ t.after := by
  intro u
  induction u with
  | nil => intro b _; left; simp [rewriteGo, tailPattern_nil hT b]
  | cons c u ih =>
    intro b hu
    have hu' : '\n' ∉ u := fun hm => hu (List.mem_cons_of_mem _ hm)
    rcases hm : matchAt re b (c :: u) with _ | n
    · rw [rewriteGo_cons_none re t c u b hm]
      rcases ih (c == '\n') hu' with h | ⟨x, m, hx, hF, h⟩
      · left; rw [h]
      · right
        exact ⟨c :: x, m, by simp [hx], hF, by rw [h]; simp⟩
    · right
      obtain ⟨m, rest, hs, hn, hF, he⟩ := hT.sound b _ n hm
      have hr : rest = [] := atEol_nil_of_not_mem he (by rw [← hs]; exact hu)
      subst hr
      simp only [List.append_nil] at hs
      subst hs
      refine ⟨[], c :: u, by simp, hF, ?_⟩
      have h1 : matchAt re b ((c :: u) ++ []) = some (c :: u).length := by
        rw [List.append_nil, hn]; exact hm
      have h2 := rewriteGo_match re t (c :: u) [] b (hT.ne _ hF) h1
      rw [List.append_nil] at h2
      rw [h2]
      simp [rewriteGo, tailPattern_nil hT]

/-- A line none of whose endings is in `F` is left unchanged. -/
theorem rewriteGo_line_id (re : Regex) (t : Template) (F : Text → Prop) (hT : TailPattern re F)
    (u : Text) (b : Bool) (hu : '\n' ∉ u) (hF : ∀ x m, u = x ++ m → ¬ F m) :
    rewriteGo re t 0 b u = u := by
  rcases rewriteGo_line re t F hT u b hu with h | ⟨x, m, hx, hm, _⟩
  · exact h
  · exact absurd hm (hF x m hx)


/-! ## The list and assigned-value patterns -/

theorem tail_reBareList : TailPattern reBareList (fun m => ∃ v, IsBare v ∧ m = bracketed v) where
  sound := by
    intro b s n h
    obtain ⟨m, rest, hs, hn, hm⟩ := matchAt_sound _ b s n h
    exact ⟨m, rest, hs, hn, (matches_reBareList hm).1, (matches_reBareList hm).2⟩
  ne := by
    rintro m ⟨v, _, rfl⟩
    simp [bracketed]

theorem tail_reIdxList : TailPattern reIdxList (fun m => ∃ v, IsIdx v ∧ m = bracketed v) where
  sound := by
    intro b s n h
    obtain ⟨m, rest, hs, hn, hm⟩ := matchAt_sound _ b s n h
    exact ⟨m, rest, hs, hn, (matches_reIdxList hm).1, (matches_reIdxList hm).2⟩
  ne := by
    rintro m ⟨v, _, rfl⟩
    simp [bracketed]

theorem tail_reBareValue : TailPattern reBareValue IsBare where
  sound := by
    intro b s n h
    obtain ⟨m, rest, hs, hn, hm⟩ := matchAt_sound _ b s n h
    exact ⟨m, rest, hs, hn, (matches_reBareValue hm).1, (matches_reBareValue hm).2⟩
  ne := by
    rintro m ⟨l, _, rfl⟩
    simp [bareVerb]

theorem tail_reIdxValue : TailPattern reIdxValue IsIdx where
  sound := by
    intro b s n h
    obtain ⟨m, rest, hs, hn, hm⟩ := matchAt_sound _ b s n h
    exact ⟨m, rest, hs, hn, (matches_reIdxValue hm).1, (matches_reIdxValue hm).2⟩
  ne := by
    rintro m ⟨ds, l, _, _, _, rfl⟩
    simp [idxVerb]

theorem nlFree_reBareList : NLFree reBareList := by
  simp [NLFree, reBareList, lit, isVerbLetter]

theorem nlFree_reIdxList : NLFree reIdxList := by
  simp [NLFree, reIdxList, lit, plus, isVerbLetter, isDigit]

theorem nlFree_reBareValue : NLFree reBareValue := by
  simp [NLFree, reBareValue, lit, isVerbLetter]

theorem nlFree_reIdxValue : NLFree reIdxValue := by
  simp [NLFree, reIdxValue, lit, plus, isVerbLetter, isDigit]

/-- Greedy repetition over a run of characters of the class, when the rest of
the pattern matches after the whole run. -/
theorem starGreedy_run (p : Char → Bool) (k : Bool → Text → Option Nat) (rest : Text) (n : Nat) :
    ∀ (ds : Text) (b : Bool), (∀ d ∈ ds, p d = true) →
      starGreedy p k (flagAfter b ds) rest = some n →
      starGreedy p k b (ds ++ rest) = some (n + ds.length) := by
  intro ds
  induction ds with
  | nil => intro b _ h; simpa [flagAfter] using h
  | cons d ds ih =>
    intro b hd h
    have h1 := ih (d == '\n') (fun x hx => hd x (List.mem_cons_of_mem _ hx))
      (by simpa [flagAfter] using h)
    rw [List.cons_append, starGreedy_cons, h1]
    simp [hd d (by simp)]
    omega

theorem matchAt_one_cons (p : Char → Bool) (r : Regex) (b : Bool) (c : Char) (s : Text) :
    matchAt (Atom.one p :: r) b (c :: s) =
      if p c then (matchAt r (c == '\n') s).map (· + 1) else none := by
  simp [matchAt]

theorem matchAt_star (p : Char → Bool) (r : Regex) (b : Bool) (s : Text) :
    matchAt (Atom.star p :: r) b s = starGreedy p (matchAt r) b s := by
  simp [matchAt]

theorem matchAt_reBareValue (l : Char) (hl : isVerbLetter l = true) (b : Bool) (rest : Text)
    (he : AtEol rest) : matchAt reBareValue b (bareVerb l ++ rest) = some 2 := by
  cases rest with
  | nil => simp [reBareValue, bareVerb, matchAt, lit, hl]
  | cons c r =>
    have hc : c = '\n' := he c (by simp)
    simp [reBareValue, bareVerb, matchAt, lit, hl, hc]

theorem isDigit_ne_close {d : Char} (h : isDigit d = true) : d ≠ ']' := by
  rintro rfl
  exact absurd h (by decide)

theorem matchAt_idx_tail (tail : Regex) (ds : Text) (l : Char) (b : Bool) (rest : Text) (n : Nat)
    (hds : ds ≠ []) (hd : ∀ d ∈ ds, isDigit d = true)
    (ht : matchAt tail false rest = some n) (hl : isVerbLetter l = true) (hnl : l ≠ '\n') :
    matchAt ([lit '%', lit '['] ++ plus isDigit ++ [lit ']', Atom.one isVerbLetter] ++ tail)
      b (idxVerb ds l ++ rest) = some (n + ds.length + 4) := by
  cases ds with
  | nil => exact absurd rfl hds
  | cons d ds =>
    have hq : isDigit ']' = false := by decide
    have hl' : (l == '\n') = false := by simpa using hnl
    have h0 : starGreedy isDigit (matchAt (lit ']' :: Atom.one isVerbLetter :: tail))
        (flagAfter (d == '\n') ds) (']' :: l :: rest) = some (n + 2) := by
      rw [starGreedy_cons]
      simp only [hq, lit, matchAt_one_cons]
      simp [hl, hl', ht]
    have h1 := starGreedy_run isDigit _ (']' :: l :: rest) (n + 2) ds (d == '\n')
      (fun x hx => hd x (List.mem_cons_of_mem _ hx)) h0
    have hd0 := hd d (by simp)
    simp only [idxVerb, plus, List.cons_append, List.nil_append, List.append_assoc,
      List.length_cons]
    rw [lit, matchAt_one_cons, lit, matchAt_one_cons, matchAt_one_cons, matchAt_star, h1]
    simp [hd0]
    omega


/-! ## The scan of `strings.ReplaceAll` -/

theorem replaceGo_cons_hit (old new : Text) (c : Char) (s : Text) (h : old <+: c :: s) :
    replaceGo old new 0 (c :: s) = new ++ replaceGo old new (old.length - 1) s := by
  have : old.isPrefixOf (c :: s) = true := (isPrefixOf_iff _ _).2 h
  simp [replaceGo, this]

theorem replaceGo_cons_miss (old new : Text) (c : Char) (s : Text) (h : ¬ old <+: c :: s) :
    replaceGo old new 0 (c :: s) = c :: replaceGo old new 0 s := by
  have : old.isPrefixOf (c :: s) = false := by
    rw [Bool.eq_false_iff]; intro hp; exact h ((isPrefixOf_iff _ _).1 hp)
  simp [replaceGo, this]

theorem replaceGo_skip (old new : Text) :
    ∀ (m rest : Text), replaceGo old new m.length (m ++ rest) = replaceGo old new 0 rest := by
  intro m
  induction m with
  | nil => intro rest; simp
  | cons c m ih =>
    intro rest
    simp only [List.length_cons, List.cons_append, replaceGo]
    exact ih rest

/-- An occurrence of `old` at the current position is replaced, and the scan
resumes after it. -/
theorem replaceGo_hit (old new rest : Text) (ho : old ≠ []) :
    replaceGo old new 0 (old ++ rest) = new ++ replaceGo old new 0 rest := by
  cases old with
  | nil => exact absurd rfl ho
  | cons c o =>
    rw [List.cons_append, replaceGo_cons_hit _ _ _ _ (by simp)]
    simp only [List.length_cons, Nat.add_sub_cancel]
    rw [replaceGo_skip]

/-- No occurrence of `old` starts at a character of the prefix `x`: the scan
copies it. -/
theorem replaceGo_copy (old new rest : Text) :
    ∀ (x : Text), (∀ x1 c x2, x = x1 ++ c :: x2 → ¬ old <+: c :: x2 ++ rest) →
      replaceGo old new 0 (x ++ rest) = x ++ replaceGo old new 0 rest := by
  intro x
  induction x with
  | nil => intro _; simp
  | cons c x ih =>
    intro h
    have h0 := h [] c x rfl
    rw [List.cons_append, replaceGo_cons_miss old new c _ (by simpa using h0), ih]
    · simp
    · intro x1 d x2 hx
      exact h (c :: x1) d x2 (by simp [hx])

/-- A prefix without the first character of `old` is copied. -/
theorem replaceGo_copy_ne (old new rest : Text) (a : Char) (o : Text) (ho : old = a :: o)
    (x : Text) (hx : ∀ c ∈ x, c ≠ a) :
    replaceGo old new 0 (x ++ rest) = x ++ replaceGo old new 0 rest := by
  apply replaceGo_copy
  intro x1 c x2 hx1 hp
  have hc : c ≠ a := hx c (by simp [hx1])
  rw [ho, List.cons_append] at hp
  obtain ⟨w, hw⟩ := hp
  simp only [List.cons_append, List.cons.injEq] at hw
  exact hc hw.1.symm

/-- A prefix `old` of `x2 ++ c0 :: y` lies within `x2`, or `x2` is a proper
beginning of `old` that is followed in `old` by `c0`. -/
theorem prefix_straddle (old x2 y : Text) (c0 : Char) (h : old <+: x2 ++ c0 :: y) :
    old <+: x2 ∨ (x2.length < old.length ∧ x2 = old.take x2.length ∧
      old.get? x2.length = some c0) := by
  rcases List.prefix_or_prefix_of_prefix h (List.prefix_append x2 (c0 :: y)) with h1 | h1
  · exact Or.inl h1
  · obtain ⟨w, hw⟩ := h1
    cases w with
    | nil =>
      left
      rw [List.append_nil] at hw
      rw [hw]
    | cons c1 w =>
      right
      subst hw
      rw [List.prefix_append_right_inj] at h
      obtain ⟨z, hz⟩ := h
      simp only [List.cons_append, List.cons.injEq] at hz
      refine ⟨by simp, by simp, ?_⟩
      rw [List.get?_eq_getElem?, List.getElem?_append_right (Nat.le_refl _)]
      simp [hz.1]

/-- A sentinel-free prefix is copied when no proper beginning of `old` that
could run into the rest ends it. -/
theorem replaceGo_copy_free (old new x y : Text) (c0 : Char) (hS : sentinel <:+: old)
    (hx : ¬ sentinel <:+: x) (hy : y.head? = some c0)
    (hc : ∀ k, k < old.length → 0 < k → old.get? k = some c0 →
      ¬ sentinel <:+: old.take k → ¬ old.take k <:+ x) :
    replaceGo old new 0 (x ++ y) = x ++ replaceGo old new 0 y := by
  apply replaceGo_copy
  intro x1 c x2 hx1 hp
  obtain ⟨y', rfl⟩ : ∃ y', y = c0 :: y' := by
    cases y with
    | nil => simp at hy
    | cons d y' => exact ⟨y', by simp at hy; rw [hy]⟩
  have hsuf : (c :: x2) <:+ x := ⟨x1, hx1.symm⟩
  rcases prefix_straddle old (c :: x2) y' c0 hp with h1 | ⟨hlt, htake, hget⟩
  · exact hx (hS.trans (h1.isInfix.trans hsuf.isInfix))
  · have hfree : ¬ sentinel <:+: old.take (c :: x2).length := by
      rw [← htake]
      exact fun hi => hx (hi.trans hsuf.isInfix)
    have := hc _ hlt (by simp) hget hfree
    rw [← htake] at this
    exact this hsuf

theorem replaceGo_copy_noclash (old new x y : Text) (c0 : Char) (hS : sentinel <:+: old)
    (hx : ¬ sentinel <:+: x) (hy : y.head? = some c0) (hc : ¬ Clash old c0) :
    replaceGo old new 0 (x ++ y) = x ++ replaceGo old new 0 y := by
  apply replaceGo_copy_free old new x y c0 hS hx hy
  intro k hk h0 hg hf _
  exact hc ⟨k, hk, h0, hg, hf⟩

theorem prefix_append_nl (old q v : Text) (ho : '\n' ∉ old) :
    old <+: q ++ '\n' :: v ↔ old <+: q := by
  constructor
  · intro h
    rcases prefix_straddle old q v '\n' h with h1 | ⟨hlt, _, hget⟩
    · exact h1
    · exact absurd (List.get?_mem hget) ho
  · intro h
    exact h.trans (List.prefix_append _ _)

/-- The scan of `strings.ReplaceAll` works line by line when `old` holds no line
feed. -/
theorem replaceGo_line_cons (old new v : Text) (ho : '\n' ∉ old) (hne : old ≠ []) :
    ∀ (u : Text) (skip : Nat), skip ≤ u.length →
      replaceGo old new skip (u ++ '\n' :: v) =
        replaceGo old new skip u ++ '\n' :: replaceGo old new 0 v := by
  intro u
  induction u with
  | nil =>
    intro skip hs
    have hs0 : skip = 0 := by simpa using hs
    subst hs0
    have h1 : ¬ old <+: '\n' :: v := by
      intro h
      have := (prefix_append_nl old [] v ho).1 (by simpa using h)
      exact hne (List.prefix_nil.1 this)
    rw [List.nil_append, replaceGo_cons_miss old new _ _ h1]
    simp [replaceGo]
  | cons c u ih =>
    intro skip hs
    rw [List.cons_append]
    cases skip with
    | succ k =>
      simp only [replaceGo]
      exact ih k (by simpa using hs)
    | zero =>
      by_cases hp : old <+: c :: u
      · have hp' : old <+: c :: (u ++ '\n' :: v) := by
          have := (prefix_append_nl old (c :: u) v ho).2 hp
          simpa using this
        have hlen := hp.length_le
        simp only [List.length_cons] at hlen
        rw [replaceGo_cons_hit old new c _ hp', replaceGo_cons_hit old new c _ hp,
          ih _ (by omega)]
        simp
      · have hp' : ¬ old <+: c :: (u ++ '\n' :: v) := by
          intro h
          exact hp ((prefix_append_nl old (c :: u) v ho).1 (by simpa using h))
        rw [replaceGo_cons_miss old new c _ hp', replaceGo_cons_miss old new c _ hp,
          ih 0 (by simp)]
        simp


/-! ## Verbs and sentinel-free texts -/

theorem isVerb_chars {v : Text} (h : IsVerb v) : ∀ c ∈ v, verbChar c = true := by
  rcases h with ⟨l, hl, rfl⟩ | ⟨ds, l, _, hd, hl, rfl⟩
  · intro c hc
    simp only [bareVerb, List.mem_cons, List.mem_singleton, List.not_mem_nil, or_false] at hc
    rcases hc with rfl | rfl
    · decide
    · simp [verbChar, hl]
  · intro c hc
    simp only [idxVerb, List.mem_cons, List.mem_append, List.mem_singleton, List.not_mem_nil,
      or_false] at hc
    rcases hc with (rfl | rfl | hc) | rfl | rfl
    · decide
    · decide
    · simp [verbChar, hd c hc]
    · decide
    · simp [verbChar, hl]

theorem verbChar_ne {c a : Char} (ha : verbChar a = false) (h : verbChar c = true) : c ≠ a := by
  rintro rfl
  rw [ha] at h
  exact Bool.false_ne_true h

theorem isVerb_not_mem {v : Text} (h : IsVerb v) (a : Char) (ha : verbChar a = false) :
    a ∉ v := fun hm => verbChar_ne ha (isVerb_chars h a hm) rfl

theorem isVerbLetter_ne_percent {l : Char} (h : isVerbLetter l = true) : l ≠ '%' := by
  rintro rfl
  exact absurd h (by decide)

theorem isDigit_ne_percent {d : Char} (h : isDigit d = true) : d ≠ '%' := by
  rintro rfl
  exact absurd h (by decide)

/-- A verb starts with its only `%`. -/
theorem isVerb_head {v : Text} (h : IsVerb v) : ∃ v', v = '%' :: v' ∧ '%' ∉ v' := by
  rcases h with ⟨l, hl, rfl⟩ | ⟨ds, l, _, hd, hl, rfl⟩
  · refine ⟨[l], rfl, ?_⟩
    simp only [List.mem_singleton]
    exact fun h => isVerbLetter_ne_percent hl h.symm
  · refine ⟨'[' :: ds ++ [']', l], rfl, ?_⟩
    simp only [List.cons_append, List.mem_cons, List.mem_append, List.mem_singleton,
      List.not_mem_nil, or_false, not_or]
    refine ⟨by decide, fun hm => isDigit_ne_percent (hd _ hm) rfl, by decide, ?_⟩
    exact fun h => isVerbLetter_ne_percent hl h.symm

theorem sentinel_chars : ∀ c ∈ sentinel, c = '@' ∨ c = '_' := by decide

theorem sentinel_ne_nil : sentinel ≠ [] := by decide

/-- Two sentinel-free texts make a sentinel-free text when the second does not
start with a character of the sentinel. -/
theorem sfree_append (x y : Text) (hx : ¬ sentinel <:+: x) (hy : ¬ sentinel <:+: y)
    (hh : ∀ c ∈ y.head?, c ≠ '@' ∧ c ≠ '_') : ¬ sentinel <:+: x ++ y := by
  induction x with
  | nil => simpa using hy
  | cons c x ih =>
    have hx' : ¬ sentinel <:+: x := fun h => hx (h.trans (List.suffix_cons c x).isInfix)
    rw [List.cons_append, List.infix_cons_iff]
    rintro (h | h)
    · cases y with
      | nil =>
        rw [List.append_nil] at h
        exact hx h.isInfix
      | cons c0 y =>
        have h' : sentinel <+: (c :: x) ++ c0 :: y := by simpa using h
        rcases prefix_straddle sentinel (c :: x) y c0 h' with h1 | ⟨_, _, hget⟩
        · exact hx h1.isInfix
        · have hm : c0 ∈ sentinel := List.get?_mem hget
          have := hh c0 (by simp)
          rcases sentinel_chars c0 hm with h2 | h2
          · exact this.1 h2
          · exact this.2 h2
    · exact ih hx' h

theorem sfree_cons (c : Char) (y : Text) (hc : c ≠ '@' ∧ c ≠ '_') (hy : ¬ sentinel <:+: y) :
    ¬ sentinel <:+: c :: y := by
  rw [List.infix_cons_iff]
  rintro (h | h)
  · have hm : c ∈ sentinel := by
      cases hs : sentinel with
      | nil => exact absurd hs sentinel_ne_nil
      | cons a s =>
        rw [hs] at h
        obtain ⟨w, hw⟩ := h
        simp only [List.cons_append, List.cons.injEq] at hw
        simp [hw.1]
    rcases sentinel_chars c hm with h2 | h2
    · exact hc.1 h2
    · exact hc.2 h2
  · exact hy h

/-- Two sentinel-free lines joined by a line feed hold no sentinel. -/
theorem sfree_join (u v : Text) (hu : ¬ sentinel <:+: u) (hv : ¬ sentinel <:+: v) :
    ¬ sentinel <:+: u ++ '\n' :: v :=
  sfree_append u ('\n' :: v) hu (sfree_cons _ v (by decide) hv) (by simp)

theorem sfree_left {x y : Text} (h : ¬ sentinel <:+: x ++ y) : ¬ sentinel <:+: x :=
  fun hi => h (hi.trans (List.prefix_append x y).isInfix)

theorem sfree_right {x y : Text} (h : ¬ sentinel <:+: x ++ y) : ¬ sentinel <:+: y :=
  fun hi => h (hi.trans (List.suffix_append x y).isInfix)


/-! ## The list and assigned-value rewrites on one line -/

theorem mem_markers {c : Char} : ∀ (j : Nat), c ∈ markers j → c ∈ commentOpen := by
  intro j
  induction j with
  | zero => intro h; simp [markers] at h
  | succ j ih =>
    intro h
    simp only [markers, List.mem_append] at h
    rcases h with h | h
    · exact h
    · exact ih h

theorem matchAt_head_false (p : Char → Bool) (r : Regex) (b : Bool) (c : Char) (s : Text)
    (h : p c = false) : matchAt (Atom.one p :: r) b (c :: s) = none := by
  simp [matchAt_one_cons, h]

/-- A pattern that starts with a character no marker holds copies a run of
markers. -/
theorem rewriteGo_markers (re : Regex) (t : Template) (p : Char → Bool) (r : Regex)
    (hre : re = Atom.one p :: r) (hp : ∀ c ∈ commentOpen, p c = false) (j : Nat) (b : Bool)
    (s : Text) :
    rewriteGo re t 0 b (markers j ++ s) =
      markers j ++ rewriteGo re t 0 (flagAfter b (markers j)) s := by
  apply rewriteGo_copy
  intro x1 c x2 hx
  rw [hre]
  exact matchAt_head_false p r _ c _ (hp c (mem_markers j (by rw [hx]; simp)))

theorem isVerb_last {v : Text} (h : IsVerb v) : ∃ z l, isVerbLetter l = true ∧ v = z ++ [l] := by
  rcases h with ⟨l, hl, rfl⟩ | ⟨ds, l, _, _, hl, rfl⟩
  · exact ⟨['%'], l, hl, rfl⟩
  · exact ⟨'%' :: '[' :: ds ++ [']'], l, hl, by simp [idxVerb]⟩

theorem isVerbLetter_ne {l a : Char} (ha : isVerbLetter a = false) (h : isVerbLetter l = true) :
    l ≠ a := by
  rintro rfl
  rw [ha] at h
  exact Bool.false_ne_true h

/-- A line that ends with a closing wrapper has no ending that a list or
assigned-value pattern matches. -/
theorem wrapped_no_tail (w x m : Text)
    (h : w ++ listClose = x ++ m ∨ w ++ valueClose = x ++ m) : ¬ IsTail m := by
  rintro (hv | ⟨v, hv, rfl⟩)
  · obtain ⟨z, l, hl, rfl⟩ := isVerb_last hv
    rcases h with h | h
    · have h' : (w ++ ":TFMT @@_@@\"".toList) ++ [']'] = (x ++ z) ++ [l] := by
        simpa [listClose] using h
      have := (List.append_inj' h' rfl).2
      simp only [List.cons.injEq, and_true] at this
      exact isVerbLetter_ne (by decide) hl this.symm
    · have h' : (w ++ ":TFMT @@_@@".toList) ++ ['"'] = (x ++ z) ++ [l] := by
        simpa [valueClose] using h
      have := (List.append_inj' h' rfl).2
      simp only [List.cons.injEq, and_true] at this
      exact isVerbLetter_ne (by decide) hl this.symm
  · obtain ⟨z, l, hl, rfl⟩ := isVerb_last hv
    rcases h with h | h
    · have h' : (w ++ ":TFMT @@_@@".toList) ++ ['"', ']'] = (x ++ '[' :: z) ++ [l, ']'] := by
        simpa [listClose, bracketed] using h
      have := (List.append_inj' h' rfl).2
      simp only [List.cons.injEq, and_true] at this
      exact isVerbLetter_ne (by decide) hl this.symm
    · have h' : (w ++ ":TFMT @@_@".toList) ++ ['@', '"'] = (x ++ '[' :: z) ++ [l, ']'] := by
        simpa [valueClose, bracketed] using h
      have := (List.append_inj' h' rfl).2
      simp only [List.cons.injEq, and_true] at this
      exact absurd this.2 (by decide)

theorem isVerb_no_nl {v : Text} (h : IsVerb v) : '\n' ∉ v := isVerb_not_mem h '\n' (by decide)

theorem lineShape_no_nl {u y : Text} (hu : '\n' ∉ u) (h : LineShape u y) : '\n' ∉ y := by
  cases h with
  | plain => exact hu
  | list x v hx hv =>
    subst hx
    simp only [List.mem_append, not_or] at hu ⊢
    exact ⟨⟨⟨hu.1, by decide⟩, hu.2⟩, by decide⟩
  | value x v hx hv =>
    subst hx
    simp only [List.mem_append, not_or] at hu ⊢
    exact ⟨⟨⟨hu.1, by decide⟩, hu.2⟩, by decide⟩

/-- One list or assigned-value rewrite keeps a line, preceded by markers, within
the forms of `LineShape`. -/
theorem pass_shape (re : Regex) (t : Template) (F : Text → Prop) (hT : TailPattern re F)
    (p : Char → Bool) (r : Regex) (hre : re = Atom.one p :: r)
    (hp : ∀ c ∈ commentOpen, p c = false) (hF : ∀ m, F m → IsTail m)
    (hout : ∀ x m, F m → LineShape (x ++ m) (x ++ t.before ++ m ++ t.after))
    (u y : Text) (j : Nat) (hu : '\n' ∉ u) (hy : LineShape u y) :
    ∃ y', LineShape u y' ∧ replaceAllString re t (markers j ++ y) = markers j ++ y' := by
  unfold replaceAllString
  rw [rewriteGo_markers re t p r hre hp]
  generalize flagAfter true (markers j) = b
  have hny := lineShape_no_nl hu hy
  cases hy with
  | plain =>
    rcases rewriteGo_line re t F hT u b hu with h | ⟨x, m, hx, hm, h⟩
    · exact ⟨u, LineShape.plain, by rw [h]⟩
    · refine ⟨x ++ t.before ++ m ++ t.after, ?_, by rw [h]⟩
      rw [hx]
      exact hout x m hm
  | list x v hx hv =>
    refine ⟨_, LineShape.list x v hx hv, ?_⟩
    rw [rewriteGo_line_id re t F hT _ b hny]
    intro x' m hm hFm
    exact wrapped_no_tail _ x' m (Or.inl hm) (hF m hFm)
  | value x v hx hv =>
    refine ⟨_, LineShape.value x v hx hv, ?_⟩
    rw [rewriteGo_line_id re t F hT _ b hny]
    intro x' m hm hFm
    exact wrapped_no_tail _ x' m (Or.inr hm) (hF m hFm)

/-- The list and assigned-value rewrites on one line preceded by markers. -/
theorem escape_line (u : Text) (j : Nat) (hu : '\n' ∉ u) :
    ∃ y, LineShape u y ∧ escapeValue (escapeList (markers j ++ u)) = markers j ++ y := by
  obtain ⟨y1, hy1, h1⟩ := pass_shape reBareList tmplList _ tail_reBareList _ _ rfl (by decide)
    (fun m ⟨v, hv, hm⟩ => Or.inr ⟨v, Or.inl hv, hm⟩)
    (fun x m ⟨v, hv, hm⟩ => by subst hm; exact LineShape.list x v rfl (Or.inl hv))
    u u j hu LineShape.plain
  obtain ⟨y2, hy2, h2⟩ := pass_shape reIdxList tmplList _ tail_reIdxList _ _ rfl (by decide)
    (fun m ⟨v, hv, hm⟩ => Or.inr ⟨v, Or.inr hv, hm⟩)
    (fun x m ⟨v, hv, hm⟩ => by subst hm; exact LineShape.list x v rfl (Or.inr hv))
    u y1 j hu hy1
  obtain ⟨y3, hy3, h3⟩ := pass_shape reBareValue tmplValue _ tail_reBareValue _ _ rfl (by decide)
    (fun m hm => Or.inl (Or.inl hm))
    (fun x m hm => LineShape.value x m rfl (Or.inl hm))
    u y2 j hu hy2
  obtain ⟨y4, hy4, h4⟩ := pass_shape reIdxValue tmplValue _ tail_reIdxValue _ _ rfl (by decide)
    (fun m hm => Or.inl (Or.inr hm))
    (fun x m hm => LineShape.value x m rfl (Or.inr hm))
    u y3 j hu hy3
  exact ⟨y4, hy4, by simp only [escapeValue, escapeList]; rw [h1, h2, h3, h4]⟩


/-! ## The removals on one escaped line -/

theorem commentOpen_eq :
    commentOpen = ['#', '@', '@', '_', '@', '@', ' ', 'T', 'F', 'M', 'T', ':'] := by decide

theorem valueOpen_eq :
    valueOpen = ['"', '@', '@', '_', '@', '@', ' ', 'T', 'F', 'M', 'T', ':'] := by decide

theorem valueClose_eq :
    valueClose = [':', 'T', 'F', 'M', 'T', ' ', '@', '@', '_', '@', '@', '"'] := by decide

theorem listOpen_eq : listOpen = '[' :: valueOpen := by decide

theorem listClose_eq : listClose = valueClose ++ [']'] := by decide

/-- The literals are built around the delimiter, which starts with the
sentinel. -/
theorem delimiter_in_literals :
    sentinel <+: fmtVerbCompatibilityDelimiter ∧
    commentOpen = '#' :: fmtVerbCompatibilityDelimiter ++ [':'] ∧
    valueOpen = '"' :: fmtVerbCompatibilityDelimiter ++ [':'] ∧
    wrapOpen = fmtVerbCompatibilityDelimiter ++ [':'] := by
  decide

theorem head_listOpen (s : Text) : (listOpen ++ s).head? = some '[' := by
  rw [listOpen_eq]; rfl

theorem head_valueOpen (s : Text) : (valueOpen ++ s).head? = some '"' := by
  rw [valueOpen_eq]; rfl

theorem head_valueClose (s : Text) : (valueClose ++ s).head? = some ':' := by
  rw [valueClose_eq]; rfl

theorem head_listClose (s : Text) : (listClose ++ s).head? = some ':' := by
  rw [listClose_eq, valueClose_eq]; rfl

theorem replaceGo_all_ne (old new : Text) (a : Char) (o : Text) (ho : old = a :: o) (x : Text)
    (hx : ∀ c ∈ x, c ≠ a) : replaceGo old new 0 x = x := by
  have := replaceGo_copy_ne old new [] a o ho x hx
  simpa [replaceGo] using this

theorem replaceGo_free (old new x : Text) (hS : sentinel <:+: old) (hx : ¬ sentinel <:+: x) :
    replaceGo old new 0 x = x :=
  replaceGo_of_absent old new x (not_infix_of_sentinel hS hx)

theorem replaceGo_markers (z : Text) : ∀ (j : Nat),
    replaceGo commentOpen [] 0 (markers j ++ z) = replaceGo commentOpen [] 0 z := by
  intro j
  induction j with
  | zero => simp [markers]
  | succ j ih =>
    simp only [markers, List.append_assoc]
    rw [replaceGo_hit commentOpen [] _ (by decide), List.nil_append, ih]

theorem isVerb_sfree {v : Text} (h : IsVerb v) : ¬ sentinel <:+: v := by
  intro hi
  have hm : '@' ∈ v := hi.subset (by decide)
  exact isVerb_not_mem h '@' (by decide) hm

theorem mem_bracketed {c : Char} {v : Text} :
    c ∈ bracketed v ↔ c = '[' ∨ c ∈ v ∨ c = ']' := by
  simp [bracketed, or_assoc]

theorem bracketed_sfree {v : Text} (h : IsVerb v) : ¬ sentinel <:+: bracketed v := by
  intro hi
  have hm : '@' ∈ bracketed v := hi.subset (by decide)
  rcases mem_bracketed.1 hm with hm | hm | hm
  · exact absurd hm (by decide)
  · exact isVerb_not_mem h '@' (by decide) hm
  · exact absurd hm (by decide)

theorem isVerb_ne_hash {v : Text} (h : IsVerb v) : ∀ c ∈ v, c ≠ '#' :=
  fun c hc => verbChar_ne (by decide) (isVerb_chars h c hc)

/-- The comment-marker removal leaves a wrapped list line unchanged. -/
theorem rmComment_list (x v : Text) (hx : ¬ sentinel <:+: x) (hv : IsVerb v) :
    replaceGo commentOpen [] 0 (x ++ (listOpen ++ (bracketed v ++ listClose))) =
      x ++ (listOpen ++ (bracketed v ++ listClose)) := by
  rw [replaceGo_copy_noclash commentOpen [] x _ '[' sentinel_infix_commentOpen hx
    (head_listOpen _) (by decide)]
  rw [replaceGo_all_ne commentOpen [] '#' _ commentOpen_eq]
  intro c hc
  simp only [List.mem_append, mem_bracketed] at hc
  rcases hc with hc | (hc | hc | hc) | hc
  · rintro rfl; exact absurd hc (by decide)
  · rw [hc]; decide
  · exact isVerb_ne_hash hv c hc
  · rw [hc]; decide
  · rintro rfl; exact absurd hc (by decide)

/-- The comment-marker removal leaves a wrapped value line unchanged. -/
theorem rmComment_value (x v : Text) (hx : ¬ sentinel <:+: x) (hv : IsVerb v) :
    replaceGo commentOpen [] 0 (x ++ (valueOpen ++ (v ++ valueClose))) =
      x ++ (valueOpen ++ (v ++ valueClose)) := by
  rw [replaceGo_copy_noclash commentOpen [] x _ '"' sentinel_infix_commentOpen hx
    (head_valueOpen _) (by decide)]
  rw [replaceGo_all_ne commentOpen [] '#' _ commentOpen_eq]
  intro c hc
  simp only [List.mem_append] at hc
  rcases hc with hc | hc | hc
  · rintro rfl; exact absurd hc (by decide)
  · exact isVerb_ne_hash hv c hc
  · rintro rfl; exact absurd hc (by decide)


theorem unescape_plain (u : Text) (j : Nat) (hu : ¬ sentinel <:+: u) :
    Unescape (markers j ++ u) = u := by
  simp only [Unescape, replaceAll]
  rw [replaceGo_markers, replaceGo_free _ _ u sentinel_infix_commentOpen hu,
    replaceGo_free _ _ u sentinel_infix_listOpen hu,
    replaceGo_free _ _ u sentinel_infix_listClose hu,
    replaceGo_free _ _ u sentinel_infix_valueOpen hu,
    replaceGo_free _ _ u sentinel_infix_valueClose hu]

/-- A wrapped list line is restored by the removals. -/
theorem unescape_list (x v : Text) (j : Nat) (hu : ¬ sentinel <:+: x ++ bracketed v)
    (hv : IsVerb v) :
    Unescape (markers j ++ (x ++ listOpen ++ bracketed v ++ listClose)) = x ++ bracketed v := by
  have hx := sfree_left hu
  simp only [Unescape, replaceAll, List.append_assoc]
  rw [replaceGo_markers, rmComment_list x v hx hv]
  -- the list opener
  rw [replaceGo_copy_noclash listOpen [] x _ '[' sentinel_infix_listOpen hx
    (head_listOpen _) (by decide)]
  rw [replaceGo_hit listOpen [] _ (by decide), List.nil_append]
  rw [replaceGo_copy_noclash listOpen [] (bracketed v) _ ':' sentinel_infix_listOpen
    (bracketed_sfree hv) (by decide) (by decide)]
  have h1 : replaceGo listOpen [] 0 listClose = listClose := by decide
  rw [h1]
  -- the list closer
  rw [← List.append_assoc]
  rw [replaceGo_copy_noclash listClose [] (x ++ bracketed v) _ ':' sentinel_infix_listClose hu
    (by decide) (by decide)]
  have h2 : replaceGo listClose [] 0 listClose = [] := by decide
  rw [h2, List.append_nil]
  rw [replaceGo_free _ _ _ sentinel_infix_valueOpen hu,
    replaceGo_free _ _ _ sentinel_infix_valueClose hu]

/-- The three last removals on a line that ends with a value closer and holds
no other sentinel. -/
theorem unescape_tail_close (w : Text) (hw : ¬ sentinel <:+: w) :
    replaceGo valueClose [] 0 (replaceGo valueOpen [] 0
      (replaceGo listClose [] 0 (w ++ valueClose))) = w := by
  rw [replaceGo_copy_noclash listClose [] w _ ':' sentinel_infix_listClose hw
    (by decide) (by decide)]
  have h1 : replaceGo listClose [] 0 valueClose = valueClose := by decide
  rw [h1]
  rw [replaceGo_copy_noclash valueOpen [] w _ ':' sentinel_infix_valueOpen hw
    (by decide) (by decide)]
  have h2 : replaceGo valueOpen [] 0 valueClose = valueClose := by decide
  rw [h2]
  rw [replaceGo_copy_noclash valueClose [] w _ ':' sentinel_infix_valueClose hw
    (by decide) (by decide)]
  have h3 : replaceGo valueClose [] 0 valueClose = [] := by decide
  rw [h3, List.append_nil]

/-- A wrapped value line whose verb follows an opening bracket: the list-opener
removal takes the bracket along with the opening wrapper. -/
theorem unescape_value_bracket (x0 v : Text) (j : Nat)
    (hu : ¬ sentinel <:+: (x0 ++ ['[']) ++ v) (hv : IsVerb v) :
    Unescape (markers j ++ ((x0 ++ ['[']) ++ valueOpen ++ v ++ valueClose)) = x0 ++ v := by
  have hx := sfree_left hu
  have hx0 := sfree_left hx
  have hv' := isVerb_sfree hv
  obtain ⟨v', hv1, _⟩ := isVerb_head hv
  have hw : ¬ sentinel <:+: x0 ++ v :=
    sfree_append x0 v hx0 hv' (by rw [hv1]; simp)
  simp only [Unescape, replaceAll]
  rw [replaceGo_markers]
  have e1 : (x0 ++ ['[']) ++ valueOpen ++ v ++ valueClose =
      (x0 ++ ['[']) ++ (valueOpen ++ (v ++ valueClose)) := by simp
  rw [e1, rmComment_value _ v hx hv]
  have e2 : (x0 ++ ['[']) ++ (valueOpen ++ (v ++ valueClose)) =
      x0 ++ (listOpen ++ (v ++ valueClose)) := by simp [listOpen_eq]
  rw [e2]
  rw [replaceGo_copy_noclash listOpen [] x0 _ '[' sentinel_infix_listOpen hx0
    (head_listOpen _) (by decide)]
  rw [replaceGo_hit listOpen [] _ (by decide), List.nil_append]
  rw [replaceGo_copy_noclash listOpen [] v _ ':' sentinel_infix_listOpen hv'
    (by decide) (by decide)]
  have h1 : replaceGo listOpen [] 0 valueClose = valueClose := by decide
  rw [h1, ← List.append_assoc]
  exact unescape_tail_close _ hw


/-- A wrapped value line whose verb does not follow an opening bracket is
restored by the removals. -/
theorem unescape_value (x v : Text) (j : Nat) (hu : ¬ sentinel <:+: x ++ v) (hv : IsVerb v)
    (hbr : ¬ ['['] <:+ x) :
    Unescape (markers j ++ (x ++ valueOpen ++ v ++ valueClose)) = x ++ v := by
  have hx := sfree_left hu
  have hv' := isVerb_sfree hv
  obtain ⟨v', hv1, _⟩ := isVerb_head hv
  simp only [Unescape, replaceAll, List.append_assoc]
  rw [replaceGo_markers, rmComment_value x v hx hv]
  -- the list opener finds nothing
  have hk : ∀ k, k < listOpen.length → 0 < k → listOpen.get? k = some '"' →
      ¬ sentinel <:+: listOpen.take k → ¬ listOpen.take k <:+ x := by
    intro k hk h0 hg _
    have hk1 : ∀ k, k < listOpen.length → listOpen.get? k = some '"' → k = 1 := by decide
    have := hk1 k hk hg
    subst this
    have ht : listOpen.take 1 = ['['] := by decide
    rw [ht]
    exact hbr
  rw [replaceGo_copy_free listOpen [] x _ '"' sentinel_infix_listOpen hx (head_valueOpen _) hk]
  rw [replaceGo_copy_ne listOpen [] _ '[' _ listOpen_eq valueOpen (by decide)]
  rw [replaceGo_copy_noclash listOpen [] v _ ':' sentinel_infix_listOpen hv'
    (by decide) (by decide)]
  have h1 : replaceGo listOpen [] 0 valueClose = valueClose := by decide
  rw [h1]
  -- the list closer finds nothing
  rw [replaceGo_copy_noclash listClose [] x _ '"' sentinel_infix_listClose hx
    (head_valueOpen _) (by decide)]
  have e1 : valueOpen ++ (v ++ valueClose) =
      ['"', '@', '@', '_', '@', '@', ' ', 'T', 'F', 'M', 'T'] ++ (':' :: (v ++ valueClose)) := by
    rw [valueOpen_eq]; rfl
  rw [e1]
  rw [replaceGo_copy_ne listClose [] _ ':' _ (by rw [listClose_eq, valueClose_eq]; rfl)
    ['"', '@', '@', '_', '@', '@', ' ', 'T', 'F', 'M', 'T'] (by decide)]
  have hmiss : ¬ listClose <+: ':' :: (v ++ valueClose) := by
    rw [hv1, listClose_eq, valueClose_eq]
    intro h
    obtain ⟨w, hw⟩ := h
    simp at hw
  rw [replaceGo_cons_miss listClose [] _ _ hmiss]
  rw [replaceGo_copy_noclash listClose [] v _ ':' sentinel_infix_listClose hv'
    (by decide) (by decide)]
  have h2 : replaceGo listClose [] 0 valueClose = valueClose := by decide
  rw [h2]
  have e2 : ['"', '@', '@', '_', '@', '@', ' ', 'T', 'F', 'M', 'T'] ++ ':' :: (v ++ valueClose) =
      valueOpen ++ (v ++ valueClose) := e1.symm
  rw [e2]
  -- the value opener and closer
  rw [replaceGo_copy_noclash valueOpen [] x _ '"' sentinel_infix_valueOpen hx
    (head_valueOpen _) (by decide)]
  rw [replaceGo_hit valueOpen [] _ (by decide), List.nil_append]
  rw [replaceGo_copy_noclash valueOpen [] v _ ':' sentinel_infix_valueOpen hv'
    (by decide) (by decide)]
  have h3 : replaceGo valueOpen [] 0 valueClose = valueClose := by decide
  rw [h3, ← List.append_assoc]
  rw [replaceGo_copy_noclash valueClose [] (x ++ v) _ ':' sentinel_infix_valueClose hu
    (by decide) (by decide)]
  have h4 : replaceGo valueClose [] 0 valueClose = [] := by decide
  rw [h4, List.append_nil]

theorem suffix_singleton_cases (x : Text) (a : Char) : [a] <:+ x → ∃ x0, x = x0 ++ [a] := by
  rintro ⟨x0, h⟩
  exact ⟨x0, h.symm⟩

/-- The removals on one escaped line give back the line, or the line without
the opening bracket that stood right before its final verb. -/
theorem unescape_line (u y : Text) (j : Nat) (hu : ¬ sentinel <:+: u) (hy : LineShape u y) :
    Unescape (markers j ++ y) = u ∨
    ∃ x0 v, IsVerb v ∧ u = x0 ++ '[' :: v ∧ Unescape (markers j ++ y) = x0 ++ v := by
  cases hy with
  | plain => exact Or.inl (unescape_plain u j hu)
  | list x v hx hv =>
    subst hx
    exact Or.inl (unescape_list x v j hu hv)
  | value x v hx hv =>
    subst hx
    by_cases hbr : ['['] <:+ x
    · obtain ⟨x0, rfl⟩ := suffix_singleton_cases x '[' hbr
      right
      exact ⟨x0, v, hv, by simp, unescape_value_bracket x0 v j hu hv⟩
    · exact Or.inl (unescape_value x v j hu hv hbr)

/-- The removals on one escaped line leave no sentinel. -/
theorem unescape_line_sfree (u y : Text) (j : Nat) (hu : ¬ sentinel <:+: u)
    (hy : LineShape u y) : ¬ sentinel <:+: Unescape (markers j ++ y) := by
  rcases unescape_line u y j hu hy with h | ⟨x0, v, hv, hx, h⟩
  · rw [h]; exact hu
  · rw [h]
    obtain ⟨v', hv1, _⟩ := isVerb_head hv
    subst hx
    exact sfree_append x0 v (sfree_left hu) (isVerb_sfree hv) (by rw [hv1]; simp)


/-! ## The bare-line rewrites put comment markers at beginnings of lines -/

theorem rewriteGo_through (re : Regex) (t : Template)
    (hbol : ∀ s, matchAt re false s = none) (rest : Text) :
    ∀ (u : Text), (∀ c ∈ u, c ≠ '\n') → ∀ (skip : Nat), ∃ k,
      List.take skip (u ++ rest) ++ rewriteGo re t skip false (u ++ rest) =
        u ++ (List.take k rest ++ rewriteGo re t k false rest) := by
  intro u
  induction u with
  | nil => intro _ skip; exact ⟨skip, by simp⟩
  | cons c u ih =>
    intro hu skip
    have hc : (c == '\n') = false := by simpa using hu c (by simp)
    have hu' : ∀ d ∈ u, d ≠ '\n' := fun d hd => hu d (List.mem_cons_of_mem _ hd)
    rw [List.cons_append]
    cases skip with
    | zero =>
      obtain ⟨k, hk⟩ := ih hu' 0
      refine ⟨k, ?_⟩
      rw [rewriteGo_cons_none re t c _ false (hbol _), hc]
      simp only [List.take_zero, List.nil_append] at hk ⊢
      rw [hk]
      simp
    | succ j =>
      obtain ⟨k, hk⟩ := ih hu' j
      refine ⟨k, ?_⟩
      simp only [List.take_succ_cons, rewriteGo, hc, List.cons_append]
      rw [hk]

theorem ins_refl : ∀ (s : Text) (b : Bool), Ins b s s := by
  intro s
  induction s with
  | nil => intro b; exact Ins.nil b
  | cons c s ih => intro b; exact Ins.copy b c s s (ih _)

/-- A rewrite with the comment template and a pattern anchored at the beginning
of a line only puts further markers at beginnings of lines. -/
theorem ins_rewrite (re : Regex) (hbol : ∀ s, matchAt re false s = none)
    (hA : ∀ b s, matchAt re b ('#' :: s) = none) :
    ∀ (b : Bool) (s T : Text), Ins b s T → ∀ (skip : Nat) (bp : Bool), (bp = true → b = true) →
      Ins b s (List.take skip T ++ rewriteGo re tmplComment skip bp T) := by
  have hbp : ∀ (bp : Bool) (s : Text) (n : Nat), matchAt re bp s = some n → bp = true := by
    intro bp s n h
    cases bp with
    | true => rfl
    | false => rw [hbol] at h; simp at h
  intro b s T h
  induction h with
  | nil b =>
    intro skip bp hb
    rcases hm : matchAt re bp [] with _ | n
    · simp only [List.take_nil, rewriteGo, hm, List.nil_append]
      exact Ins.nil b
    · have hb' := hb (hbp _ _ _ hm)
      subst hb'
      simp only [List.take_nil, rewriteGo, hm, List.nil_append, Template.expand, tmplComment,
        List.append_nil]
      have := Ins.mark [] [] (Ins.nil true)
      simpa using this
  | copy b c s T1 _ ih =>
    intro skip bp hb
    cases skip with
    | succ j =>
      simp only [List.take_succ_cons, rewriteGo, List.cons_append]
      exact Ins.copy b c s _ (ih j _ (fun h => h))
    | zero =>
      rcases hm : matchAt re bp (c :: T1) with _ | n
      · rw [rewriteGo_cons_none re _ c T1 bp hm]
        have := ih 0 (c == '\n') (fun h => h)
        simp only [List.take_zero, List.nil_append] at this ⊢
        exact Ins.copy b c s _ this
      · have hb' := hb (hbp _ _ _ hm)
        subst hb'
        cases n with
        | zero =>
          have := ih 0 (c == '\n') (fun h => h)
          simp only [List.take_zero, List.nil_append] at this
          simp only [List.take_zero, List.nil_append, rewriteGo, hm, Template.expand, tmplComment,
            List.append_nil]
          exact Ins.mark _ _ (Ins.copy true c s _ this)
        | succ n =>
          rw [rewriteGo_cons_some re _ c T1 bp n hm]
          have := ih n (c == '\n') (fun h => h)
          simp only [List.take_zero, List.nil_append, Template.expand, tmplComment,
            List.append_nil, List.take_succ_cons, List.append_assoc, List.cons_append]
          exact Ins.mark _ _ (Ins.copy true c s _ this)
  | mark s T1 _ ih =>
    intro skip bp _
    have hthru : ∃ k, List.take skip (commentOpen ++ T1) ++
        rewriteGo re tmplComment skip bp (commentOpen ++ T1) =
        commentOpen ++ (List.take k T1 ++ rewriteGo re tmplComment k false T1) := by
      rw [commentOpen_eq]
      have hrest : ∀ c ∈ ['@', '@', '_', '@', '@', ' ', 'T', 'F', 'M', 'T', ':'], c ≠ '\n' := by
        decide
      rw [List.cons_append]
      cases skip with
      | zero =>
        obtain ⟨k, hk⟩ := rewriteGo_through re tmplComment hbol T1 _ hrest 0
        refine ⟨k, ?_⟩
        rw [rewriteGo_cons_none re _ '#' _ bp (hA _ _)]
        have h1 : ('#' == '\n') = false := by decide
        rw [h1]
        simp only [List.take_zero, List.nil_append] at hk ⊢
        rw [hk]
        simp
      | succ j =>
        obtain ⟨k, hk⟩ := rewriteGo_through re tmplComment hbol T1 _ hrest j
        refine ⟨k, ?_⟩
        have h1 : ('#' == '\n') = false := by decide
        rw [List.take_succ_cons, rewriteGo_succ_cons, List.cons_append, h1, hk]
        rfl
    obtain ⟨k, hk⟩ := hthru
    rw [hk]
    exact Ins.mark _ _ (ih k false (by simp))

theorem ins_replaceAllString (re : Regex) (hbol : ∀ s, matchAt re false s = none)
    (hA : ∀ b s, matchAt re b ('#' :: s) = none) (s T : Text) (h : Ins true s T) :
    Ins true s (replaceAllString re tmplComment T) := by
  have := ins_rewrite re hbol hA true s T h 0 true (fun h => h)
  simpa [replaceAllString] using this

theorem bol_reBareLine (s : Text) : matchAt reBareLine false s = none := by
  simp [reBareLine, matchAt]

theorem bol_reBareLineWs (s : Text) : matchAt reBareLineWs false s = none := by
  simp [reBareLineWs, matchAt]

theorem bol_reIdxLine (s : Text) : matchAt reIdxLine false s = none := by
  simp [reIdxLine, matchAt]

theorem bol_reIdxLineWs (s : Text) : matchAt reIdxLineWs false s = none := by
  simp [reIdxLineWs, matchAt]

theorem hash_reBareLine (b : Bool) (s : Text) : matchAt reBareLine b ('#' :: s) = none := by
  simp [reBareLine, matchAt, lit]

theorem hash_reBareLineWs (b : Bool) (s : Text) : matchAt reBareLineWs b ('#' :: s) = none := by
  have h : isSpace '#' = false := by decide
  simp [reBareLineWs, matchAt, lit, starGreedy, h]

theorem hash_reIdxLine (b : Bool) (s : Text) : matchAt reIdxLine b ('#' :: s) = none := by
  simp [reIdxLine, matchAt, lit]

theorem hash_reIdxLineWs (b : Bool) (s : Text) : matchAt reIdxLineWs b ('#' :: s) = none := by
  have h : isSpace '#' = false := by decide
  simp [reIdxLineWs, matchAt, lit, starGreedy, h]

/-- The bare-line rewrites only put comment markers at beginnings of lines. -/
theorem ins_escapeBare (b : Text) : Ins true b (escapeBare b) := by
  unfold escapeBare
  exact ins_replaceAllString _ bol_reIdxLineWs hash_reIdxLineWs _ _
    (ins_replaceAllString _ bol_reIdxLine hash_reIdxLine _ _
      (ins_replaceAllString _ bol_reBareLineWs hash_reBareLineWs _ _
        (ins_replaceAllString _ bol_reBareLine hash_reBareLine _ _ (ins_refl b true))))


/-! ## Line by line -/

theorem markers_succ_append (j : Nat) (s : Text) :
    commentOpen ++ (markers j ++ s) = markers (j + 1) ++ s := by
  simp [markers]

/-- The first line of a text with markers put in: a run of markers, the line,
and the rest with markers put in. -/
theorem ins_peel : ∀ (b : Bool) (s T : Text), Ins b s T → ∀ (u v : Text),
    s = u ++ '\n' :: v → '\n' ∉ u →
    ∃ j T', (b = false → j = 0) ∧ T = markers j ++ (u ++ '\n' :: T') ∧ Ins true v T' := by
  intro b s T h
  induction h with
  | nil b => intro u v hs; simp at hs
  | copy b c s T1 h1 ih =>
    intro u v hs hu
    cases u with
    | nil =>
      simp only [List.nil_append, List.cons.injEq] at hs
      obtain ⟨rfl, rfl⟩ := hs
      exact ⟨0, T1, fun _ => rfl, by simp [markers], by simpa using h1⟩
    | cons d u =>
      simp only [List.cons_append, List.cons.injEq] at hs
      obtain ⟨rfl, rfl⟩ := hs
      have hc : (c == '\n') = false := by
        have : c ≠ '\n' := fun h => hu (by simp [h])
        simpa using this
      obtain ⟨j, T', hj, hT, hI⟩ := ih u v rfl (fun hm => hu (List.mem_cons_of_mem _ hm))
      have hj0 := hj hc
      subst hj0
      exact ⟨0, T', fun _ => rfl, by simp [markers, hT], hI⟩
  | mark s T1 _ ih =>
    intro u v hs hu
    obtain ⟨j, T', _, hT, hI⟩ := ih u v hs hu
    exact ⟨j + 1, T', fun h => by simp at h, by rw [hT, markers_succ_append], hI⟩

/-- A single line with markers put in: a run of markers and the line. -/
theorem ins_last : ∀ (b : Bool) (s T : Text), Ins b s T → '\n' ∉ s →
    ∃ j, (b = false → j = 0) ∧ T = markers j ++ s := by
  intro b s T h
  induction h with
  | nil b => intro _; exact ⟨0, fun _ => rfl, by simp [markers]⟩
  | copy b c s T1 _ ih =>
    intro hu
    have hc : (c == '\n') = false := by
      have : c ≠ '\n' := fun h => hu (by simp [h])
      simpa using this
    obtain ⟨j, hj, hT⟩ := ih (fun hm => hu (List.mem_cons_of_mem _ hm))
    have hj0 := hj hc
    subst hj0
    exact ⟨0, fun _ => rfl, by simp [markers, hT]⟩
  | mark s T1 _ ih =>
    intro hu
    obtain ⟨j, _, hT⟩ := ih hu
    refine ⟨j + 1, fun h => by simp at h, ?_⟩
    rw [hT]
    simp [markers]

theorem rewriteGo_no_nl (re : Regex) (t : Template) (F : Text → Prop) (hT : TailPattern re F)
    (h1 : '\n' ∉ t.before) (h2 : '\n' ∉ t.after) (u : Text) (b : Bool) (hu : '\n' ∉ u) :
    '\n' ∉ rewriteGo re t 0 b u := by
  rcases rewriteGo_line re t F hT u b hu with h | ⟨x, m, hx, _, h⟩
  · rw [h]; exact hu
  · rw [h]
    subst hx
    simp only [List.mem_append, not_or] at hu ⊢
    exact ⟨⟨⟨hu.1, h1⟩, hu.2⟩, h2⟩

theorem replaceAllString_line_cons (re : Regex) (t : Template) (F : Text → Prop)
    (hT : TailPattern re F) (hN : NLFree re) (u v : Text) (hu : '\n' ∉ u) :
    replaceAllString re t (u ++ '\n' :: v) =
      replaceAllString re t u ++ '\n' :: replaceAllString re t v :=
  rewriteGo_line_cons re t v hN (tailPattern_nil hT) u hu 0 true (Nat.zero_le _)

/-- The list and assigned-value rewrites work line by line. -/
theorem escape_line_cons (u v : Text) (hu : '\n' ∉ u) :
    escapeValue (escapeList (u ++ '\n' :: v)) =
      escapeValue (escapeList u) ++ '\n' :: escapeValue (escapeList v) := by
  have n1 : '\n' ∉ replaceAllString reBareList tmplList u :=
    rewriteGo_no_nl _ _ _ tail_reBareList (by decide) (by decide) u true hu
  have n2 : '\n' ∉ replaceAllString reIdxList tmplList (replaceAllString reBareList tmplList u) :=
    rewriteGo_no_nl _ _ _ tail_reIdxList (by decide) (by decide) _ true n1
  have n3 : '\n' ∉ replaceAllString reBareValue tmplValue
      (replaceAllString reIdxList tmplList (replaceAllString reBareList tmplList u)) :=
    rewriteGo_no_nl _ _ _ tail_reBareValue (by decide) (by decide) _ true n2
  simp only [escapeValue, escapeList]
  rw [replaceAllString_line_cons _ _ _ tail_reBareList nlFree_reBareList u v hu,
    replaceAllString_line_cons _ _ _ tail_reIdxList nlFree_reIdxList _ _ n1,
    replaceAllString_line_cons _ _ _ tail_reBareValue nlFree_reBareValue _ _ n2,
    replaceAllString_line_cons _ _ _ tail_reIdxValue nlFree_reIdxValue _ _ n3]

theorem replaceAll_line_cons (old new u v : Text) (ho : '\n' ∉ old) (hne : old ≠ []) :
    replaceAll (u ++ '\n' :: v) old new = replaceAll u old new ++ '\n' :: replaceAll v old new :=
  replaceGo_line_cons old new v ho hne u 0 (Nat.zero_le _)

/-- The removals work line by line. -/
theorem unescape_line_cons (u v : Text) :
    Unescape (u ++ '\n' :: v) = Unescape u ++ '\n' :: Unescape v := by
  simp only [Unescape]
  rw [replaceAll_line_cons _ _ u v (by decide) (by decide),
    replaceAll_line_cons _ _ _ _ (by decide) (by decide),
    replaceAll_line_cons _ _ _ _ (by decide) (by decide),
    replaceAll_line_cons _ _ _ _ (by decide) (by decide),
    replaceAll_line_cons _ _ _ _ (by decide) (by decide)]

/-- Escaping and unescaping a sentinel-free text, line after line, leaves no
sentinel. -/
theorem unescape_escape_sfree : ∀ (s pre T : Text), '\n' ∉ pre → Ins true (pre ++ s) T →
    ¬ sentinel <:+: pre ++ s → ¬ sentinel <:+: Unescape (escapeValue (escapeList T)) := by
  intro s
  induction s with
  | nil =>
    intro pre T hpre hI hS
    rw [List.append_nil] at hI hS
    obtain ⟨j, _, rfl⟩ := ins_last true pre T hI hpre
    obtain ⟨y, hy, he⟩ := escape_line pre j hpre
    rw [he]
    exact unescape_line_sfree pre y j hS hy
  | cons c s ih =>
    intro pre T hpre hI hS
    by_cases hc : c = '\n'
    · subst hc
      obtain ⟨j, T', _, rfl, hI'⟩ := ins_peel true _ T hI pre s rfl hpre
      have hmp : '\n' ∉ markers j ++ pre := by
        intro hm
        rcases List.mem_append.1 hm with hm | hm
        · exact absurd (mem_markers j hm) (by decide)
        · exact hpre hm
      obtain ⟨y, hy, he⟩ := escape_line pre j hpre
      rw [← List.append_assoc, escape_line_cons _ _ hmp, he, unescape_line_cons]
      apply sfree_join
      · exact unescape_line_sfree pre y j (sfree_left hS) hy
      · have hS' : ¬ sentinel <:+: s := fun h =>
          hS (h.trans ((List.suffix_cons _ s).isInfix.trans (List.suffix_append pre _).isInfix))
        exact ih [] T' (by simp) (by simpa using hI') (by simpa using hS')
    · have e : pre ++ c :: s = (pre ++ [c]) ++ s := by simp
      rw [e] at hI hS
      refine ih (pre ++ [c]) T ?_ hI hS
      intro hm
      rcases List.mem_append.1 hm with hm | hm
      · exact hpre hm
      · have : '\n' = c := by simpa using hm
        exact hc this.symm


/-! ## A line that ends with a verb or a bracketed verb -/

/-- The scan of a line `x ++ m` whose ending `m` the pattern matches, and no
longer ending: `m` is wrapped by the template. -/
theorem rewriteGo_line_exact (re : Regex) (t : Template) (F : Text → Prop)
    (hT : TailPattern re F) (x m : Text) (hx : '\n' ∉ x ++ m) (hm : m ≠ [])
    (hmatch : ∀ b, matchAt re b m = some m.length)
    (huniq : ∀ x1 c x2, x = x1 ++ c :: x2 → ¬ F (c :: x2 ++ m)) (b : Bool) :
    rewriteGo re t 0 b (x ++ m) = x ++ t.before ++ m ++ t.after := by
  have hcopy : rewriteGo re t 0 b (x ++ m) = x ++ rewriteGo re t 0 (flagAfter b x) m := by
    apply rewriteGo_copy
    intro x1 c x2 hx1
    rcases h : matchAt re (flagAfter b x1) (c :: x2 ++ m) with _ | n
    · rfl
    · exfalso
      obtain ⟨m', rest, hs, _, hF, he⟩ := hT.sound _ _ n h
      have hnl : '\n' ∉ m' ++ rest := by
        rw [← hs]
        intro hmem
        apply hx
        rw [hx1]
        simp only [List.append_assoc, List.mem_append]
        exact Or.inr (by simpa [or_assoc] using hmem)
      have hr := atEol_nil_of_not_mem he hnl
      subst hr
      rw [List.append_nil] at hs
      rw [← hs] at hF
      exact huniq x1 c x2 hx1 hF
  rw [hcopy]
  have h1 := rewriteGo_match re t m [] (flagAfter b x) hm (by rw [List.append_nil]; exact hmatch _)
  rw [List.append_nil] at h1
  rw [h1]
  simp [rewriteGo, tailPattern_nil hT]

theorem matchAt_reIdxValue (v : Text) (hv : IsIdx v) (b : Bool) :
    matchAt reIdxValue b v = some v.length := by
  obtain ⟨ds, l, hds, hd, hl, rfl⟩ := hv
  have h := matchAt_idx_tail [Atom.eol] ds l b [] 0 hds hd (by simp [matchAt]) hl
    (isVerbLetter_ne (by decide) hl)
  rw [List.append_nil] at h
  have e : reIdxValue = [lit '%', lit '['] ++ plus isDigit ++ [lit ']', Atom.one isVerbLetter]
      ++ [Atom.eol] := rfl
  rw [e, h]
  simp [idxVerb]

theorem matchAt_reBareValue_self (v : Text) (hv : IsBare v) (b : Bool) :
    matchAt reBareValue b v = some v.length := by
  obtain ⟨l, hl, rfl⟩ := hv
  have := matchAt_reBareValue l hl b [] (by simp [AtEol])
  rw [List.append_nil] at this
  rw [this]
  rfl

theorem matchAt_reBareList_self (v : Text) (hv : IsBare v) (b : Bool) :
    matchAt reBareList b (bracketed v) = some (bracketed v).length := by
  obtain ⟨l, hl, rfl⟩ := hv
  simp [reBareList, bracketed, bareVerb, matchAt, lit, hl]

theorem matchAt_reIdxList_self (v : Text) (hv : IsIdx v) (b : Bool) :
    matchAt reIdxList b (bracketed v) = some (bracketed v).length := by
  obtain ⟨ds, l, hds, hd, hl, rfl⟩ := hv
  have h := matchAt_idx_tail [lit ']', Atom.eol] ds l false [']'] 1 hds hd
    (by simp [matchAt, lit]) hl (isVerbLetter_ne (by decide) hl)
  have e : reIdxList = lit '[' :: ([lit '%', lit '['] ++ plus isDigit ++
      [lit ']', Atom.one isVerbLetter] ++ [lit ']', Atom.eol]) := rfl
  have e2 : bracketed (idxVerb ds l) = '[' :: (idxVerb ds l ++ [']']) := rfl
  rw [e, e2, lit, matchAt_one_cons]
  have h3 : ('[' == '\n') = false := by decide
  simp only [beq_self_eq_true, if_true, h3]
  rw [← lit, h]
  simp [idxVerb]
  omega

/-- A longer ending of a line that ends with a verb is not a verb. -/
theorem isVerb_uniq (c : Char) (x2 v : Text) (hv : IsVerb v) : ¬ IsVerb (c :: x2 ++ v) := by
  intro h
  obtain ⟨w, hw, hnot⟩ := isVerb_head h
  obtain ⟨v', hv1, _⟩ := isVerb_head hv
  simp only [List.cons_append, List.cons.injEq] at hw
  apply hnot
  rw [← hw.2, hv1]
  simp

/-- A longer ending of a line that ends with a bracketed verb is not a bracketed
verb. -/
theorem bracketed_uniq (c : Char) (x2 v : Text) (hv : IsVerb v) :
    ¬ ∃ v2, IsVerb v2 ∧ c :: x2 ++ bracketed v = bracketed v2 := by
  rintro ⟨v2, hv2, h⟩
  obtain ⟨w, hw, hnot⟩ := isVerb_head hv2
  obtain ⟨v', hv1, _⟩ := isVerb_head hv
  subst hw hv1
  simp only [bracketed, List.cons_append, List.cons.injEq] at h
  obtain ⟨_, h⟩ := h
  cases x2 with
  | nil =>
    simp only [List.nil_append, List.cons.injEq] at h
    exact absurd h.1 (by decide)
  | cons e x2 =>
    simp only [List.cons_append, List.cons.injEq] at h
    have h2 : (x2 ++ '[' :: '%' :: v') ++ [']'] = w ++ [']'] := by simpa using h.2
    have h3 := (List.append_inj' h2 rfl).1
    apply hnot
    rw [← h3]
    simp

theorem isVerb_last_ne_close {v x m : Text} {p : Text} (hv : IsVerb v)
    (h : p ++ v = x ++ m ++ [']']) : False := by
  obtain ⟨z, l, hl, rfl⟩ := isVerb_last hv
  have h' : (p ++ z) ++ [l] = (x ++ m) ++ [']'] := by simpa using h
  have := (List.append_inj' h' rfl).2
  simp only [List.cons.injEq, and_true] at this
  exact isVerbLetter_ne (by decide) hl this

/-- The list rewrites leave a line that ends with a verb unchanged. -/
theorem escapeList_verb_line (p v : Text) (hp : '\n' ∉ p) (hv : IsVerb v) :
    escapeList (p ++ v) = p ++ v := by
  have hnl : '\n' ∉ p ++ v := by
    simp only [List.mem_append, not_or]
    exact ⟨hp, isVerb_no_nl hv⟩
  have hno : ∀ x m, p ++ v = x ++ m → ¬ ∃ v2, m = bracketed v2 := by
    rintro x m h ⟨v2, rfl⟩
    exact isVerb_last_ne_close (m := '[' :: v2) hv (by simpa [bracketed] using h)
  simp only [escapeList, replaceAllString]
  rw [rewriteGo_line_id _ _ _ tail_reBareList _ _ hnl
    (fun x m h ⟨v2, _, hm⟩ => hno x m h ⟨v2, hm⟩)]
  rw [rewriteGo_line_id _ _ _ tail_reIdxList _ _ hnl
    (fun x m h ⟨v2, _, hm⟩ => hno x m h ⟨v2, hm⟩)]

theorem isBare_not_isIdx {v : Text} (h1 : IsBare v) (h2 : IsIdx v) : False := by
  obtain ⟨l, hl, rfl⟩ := h1
  obtain ⟨ds, l2, _, _, _, h⟩ := h2
  simp only [bareVerb, idxVerb, List.cons_append, List.cons.injEq, true_and] at h
  have : isVerbLetter '[' = true := by rw [← h.1]; exact hl
  exact absurd this (by decide)

/-- The assigned-value rewrites wrap the verb that ends a line. -/
theorem escapeValue_verb_line (p v : Text) (hp : '\n' ∉ p) (hv : IsVerb v) :
    escapeValue (p ++ v) = p ++ valueOpen ++ v ++ valueClose := by
  have hnl : '\n' ∉ p ++ v := by
    simp only [List.mem_append, not_or]
    exact ⟨hp, isVerb_no_nl hv⟩
  have hne : v ≠ [] := by
    obtain ⟨w, hw, _⟩ := isVerb_head hv
    rw [hw]; simp
  have hnl' : '\n' ∉ p ++ valueOpen ++ v ++ valueClose := by
    simp only [List.mem_append, not_or]
    exact ⟨⟨⟨hp, by decide⟩, isVerb_no_nl hv⟩, by decide⟩
  simp only [escapeValue, replaceAllString]
  rcases hv with hb | hi
  · rw [rewriteGo_line_exact _ tmplValue _ tail_reBareValue p v hnl hne
      (matchAt_reBareValue_self v hb)
      (fun x1 c x2 _ h => isVerb_uniq c x2 v (Or.inl hb) (Or.inl h))]
    simp only [tmplValue]
    rw [rewriteGo_line_id _ _ _ tail_reIdxValue _ _ hnl']
    intro x m hm hF
    exact wrapped_no_tail _ x m (Or.inr hm) (Or.inl (Or.inr hF))
  · rw [rewriteGo_line_id _ _ _ tail_reBareValue _ _ hnl]
    · rw [rewriteGo_line_exact _ tmplValue _ tail_reIdxValue p v hnl hne
        (matchAt_reIdxValue v hi)
        (fun x1 c x2 _ h => isVerb_uniq c x2 v (Or.inr hi) (Or.inr h))]
      simp only [tmplValue]
    · intro x m hm hF
      obtain ⟨l, hl, rfl⟩ := hF
      obtain ⟨ds, l2, _, _, _, rfl⟩ := hi
      have h' : (p ++ '%' :: '[' :: ds) ++ [']', l2] = x ++ ['%', l] := by
        simpa [idxVerb, bareVerb] using hm
      have := (List.append_inj' h' rfl).2
      simp only [List.cons.injEq, and_true] at this
      exact absurd this.1 (by decide)


/-! ## The bare-line patterns on one line -/

theorem matches_reBareLine {b : Bool} {m rest : Text} (h : Matches reBareLine b m rest) :
    IsBareLine m ∧ AtEol rest := by
  simp only [reBareLine, lit, Matches] at h
  obtain ⟨_, c, m1, rfl, hc, l, m2, rfl, hl, he, rfl⟩ := h
  have hc' : c = '%' := by simpa using hc
  subst hc'
  exact ⟨⟨[], bareVerb l, by simp, Or.inl ⟨l, hl, rfl⟩, rfl⟩, by simpa [AtEol] using he⟩

theorem matches_reBareLineWs {b : Bool} {m rest : Text} (h : Matches reBareLineWs b m rest) :
    IsBareLine m ∧ AtEol rest := by
  simp only [reBareLineWs, lit, Matches] at h
  obtain ⟨_, w, m0, rfl, hw, c, m1, rfl, hc, l, m2, rfl, hl, he, rfl⟩ := h
  have hc' : c = '%' := by simpa using hc
  subst hc'
  exact ⟨⟨w, bareVerb l, hw, Or.inl ⟨l, hl, rfl⟩, rfl⟩, by simpa [AtEol] using he⟩

theorem matches_reIdxLine {b : Bool} {m rest : Text} (h : Matches reIdxLine b m rest) :
    IsBareLine m ∧ AtEol rest := by
  simp only [reIdxLine, lit, plus, Matches, List.cons_append, List.nil_append] at h
  obtain ⟨_, c, m1, rfl, hc, c2, m2, rfl, hc2, d, m3, rfl, hd, ds, m4, rfl, hds,
    c3, m5, rfl, hc3, l, m6, rfl, hl, he, rfl⟩ := h
  have hc' : c = '%' := by simpa using hc
  have hc2' : c2 = '[' := by simpa using hc2
  have hc3' : c3 = ']' := by simpa using hc3
  subst hc' hc2' hc3'
  refine ⟨⟨[], idxVerb (d :: ds) l, by simp, Or.inr ⟨d :: ds, l, by simp, ?_, hl, rfl⟩,
    by simp [idxVerb]⟩, by simpa [AtEol] using he⟩
  intro x hx
  rcases List.mem_cons.1 hx with rfl | hx
  · exact hd
  · exact hds x hx

theorem matches_reIdxLineWs {b : Bool} {m rest : Text} (h : Matches reIdxLineWs b m rest) :
    IsBareLine m ∧ AtEol rest := by
  simp only [reIdxLineWs, lit, plus, Matches, List.cons_append, List.nil_append] at h
  obtain ⟨_, w, m0, rfl, hw, c, m1, rfl, hc, c2, m2, rfl, hc2, d, m3, rfl, hd, ds, m4, rfl, hds,
    c3, m5, rfl, hc3, l, m6, rfl, hl, he, rfl⟩ := h
  have hc' : c = '%' := by simpa using hc
  have hc2' : c2 = '[' := by simpa using hc2
  have hc3' : c3 = ']' := by simpa using hc3
  subst hc' hc2' hc3'
  refine ⟨⟨w, idxVerb (d :: ds) l, hw, Or.inr ⟨d :: ds, l, by simp, ?_, hl, rfl⟩,
    by simp [idxVerb]⟩, by simpa [AtEol] using he⟩
  intro x hx
  rcases List.mem_cons.1 hx with rfl | hx
  · exact hd
  · exact hds x hx

theorem flagAfter_false : ∀ (x : Text), '\n' ∉ x → flagAfter false x = false := by
  intro x
  induction x with
  | nil => intro _; rfl
  | cons c x ih =>
    intro h
    have hc : (c == '\n') = false := by
      have : c ≠ '\n' := fun hc => h (by simp [hc])
      simpa using this
    simp only [flagAfter, hc]
    exact ih (fun hm => h (List.mem_cons_of_mem _ hm))

/-- A pattern anchored at the beginning of a line that does not match a line
leaves it unchanged. -/
theorem rewriteGo_bol_line (re : Regex) (t : Template) (hbol : ∀ s, matchAt re false s = none)
    (L : Text) (hnl : '\n' ∉ L) (h0 : matchAt re true L = none) :
    rewriteGo re t 0 true L = L := by
  have hfalse : ∀ (x : Text), '\n' ∉ x → rewriteGo re t 0 false x = x := by
    intro x hx
    have := rewriteGo_copy re t [] x false (fun x1 c x2 hx1 => by
      rw [flagAfter_false x1 (fun hm => hx (by rw [hx1]; simp [hm]))]
      exact hbol _)
    rw [List.append_nil, flagAfter_false x hx] at this
    simpa [rewriteGo, hbol] using this
  cases L with
  | nil => simp [rewriteGo, h0]
  | cons c L =>
    have hc : (c == '\n') = false := by
      have : c ≠ '\n' := fun hc => hnl (by simp [hc])
      simpa using this
    rw [rewriteGo_cons_none re t c L true h0, hc,
      hfalse L (fun hm => hnl (List.mem_cons_of_mem _ hm))]

theorem matchAt_bareLine_none (re : Regex)
    (hm : ∀ b m rest, Matches re b m rest → IsBareLine m ∧ AtEol rest)
    (L : Text) (hnl : '\n' ∉ L) (hno : ¬ IsBareLine L) (b : Bool) : matchAt re b L = none := by
  rcases h : matchAt re b L with _ | n
  · rfl
  · exfalso
    obtain ⟨m, rest, hs, _, hM⟩ := matchAt_sound re b L n h
    obtain ⟨hF, he⟩ := hm b m rest hM
    have hr := atEol_nil_of_not_mem he (by rw [← hs]; exact hnl)
    subst hr
    rw [List.append_nil] at hs
    rw [hs] at hno
    exact hno hF

/-- The bare-line rewrites leave unchanged a single line that is not made of
white space and one verb. -/
theorem escapeBare_line_id (L : Text) (hnl : '\n' ∉ L) (hno : ¬ IsBareLine L) :
    escapeBare L = L := by
  simp only [escapeBare, replaceAllString]
  rw [rewriteGo_bol_line _ _ bol_reBareLine L hnl
      (matchAt_bareLine_none _ (fun _ _ _ h => matches_reBareLine h) L hnl hno true),
    rewriteGo_bol_line _ _ bol_reBareLineWs L hnl
      (matchAt_bareLine_none _ (fun _ _ _ h => matches_reBareLineWs h) L hnl hno true),
    rewriteGo_bol_line _ _ bol_reIdxLine L hnl
      (matchAt_bareLine_none _ (fun _ _ _ h => matches_reIdxLine h) L hnl hno true),
    rewriteGo_bol_line _ _ bol_reIdxLineWs L hnl
      (matchAt_bareLine_none _ (fun _ _ _ h => matches_reIdxLineWs h) L hnl hno true)]

/-- The list rewrites wrap the bracketed verb that ends a line. -/
theorem escapeList_bracketed_line (p v : Text) (hp : '\n' ∉ p) (hv : IsVerb v) :
    escapeList (p ++ bracketed v) = p ++ listOpen ++ bracketed v ++ listClose := by
  have hvn := isVerb_no_nl hv
  have hnl : '\n' ∉ p ++ bracketed v := by
    simp only [List.mem_append, not_or, mem_bracketed]
    exact ⟨hp, by decide, hvn, by decide⟩
  have hne : bracketed v ≠ [] := by simp [bracketed]
  have hnl' : '\n' ∉ p ++ listOpen ++ bracketed v ++ listClose := by
    simp only [List.mem_append, not_or, mem_bracketed]
    exact ⟨⟨⟨hp, by decide⟩, by decide, hvn, by decide⟩, by decide⟩
  simp only [escapeList, replaceAllString]
  rcases hv with hb | hi
  · rw [rewriteGo_line_exact _ tmplList _ tail_reBareList p _ hnl hne
      (matchAt_reBareList_self v hb)
      (fun x1 c x2 _ ⟨v2, hv2, h⟩ => bracketed_uniq c x2 v (Or.inl hb) ⟨v2, Or.inl hv2, h⟩)]
    simp only [tmplList]
    rw [rewriteGo_line_id _ _ _ tail_reIdxList _ _ hnl']
    intro x m hm ⟨v2, hv2, hF⟩
    exact wrapped_no_tail _ x m (Or.inl hm) (Or.inr ⟨v2, Or.inr hv2, hF⟩)
  · rw [rewriteGo_line_id _ _ _ tail_reBareList _ _ hnl]
    · rw [rewriteGo_line_exact _ tmplList _ tail_reIdxList p _ hnl hne
        (matchAt_reIdxList_self v hi)
        (fun x1 c x2 _ ⟨v2, hv2, h⟩ => bracketed_uniq c x2 v (Or.inr hi) ⟨v2, Or.inr hv2, h⟩)]
      simp only [tmplList]
    · rintro x m hm ⟨v2, ⟨l, hl, rfl⟩, rfl⟩
      obtain ⟨ds, l2, _, _, _, rfl⟩ := hi
      have h' : (p ++ '[' :: '%' :: '[' :: ds) ++ [']', l2, ']'] = (x ++ ['[']) ++ ['%', l, ']'] := by
        simpa [idxVerb, bareVerb, bracketed] using hm
      have := (List.append_inj' h' rfl).2
      simp only [List.cons.injEq, and_true] at this
      exact absurd this.1 (by decide)

/-- The assigned-value rewrites leave a wrapped list line unchanged. -/
theorem escapeValue_wrapped_list (p v : Text) (hp : '\n' ∉ p) (hv : IsVerb v) :
    escapeValue (p ++ listOpen ++ bracketed v ++ listClose) =
      p ++ listOpen ++ bracketed v ++ listClose := by
  have hnl' : '\n' ∉ p ++ listOpen ++ bracketed v ++ listClose := by
    simp only [List.mem_append, not_or, mem_bracketed]
    exact ⟨⟨⟨hp, by decide⟩, by decide, isVerb_no_nl hv, by decide⟩, by decide⟩
  simp only [escapeValue, replaceAllString]
  rw [rewriteGo_line_id _ _ _ tail_reBareValue _ _ hnl'
    (fun x m hm hF => wrapped_no_tail _ x m (Or.inl hm) (Or.inl (Or.inl hF)))]
  rw [rewriteGo_line_id _ _ _ tail_reIdxValue _ _ hnl'
    (fun x m hm hF => wrapped_no_tail _ x m (Or.inl hm) (Or.inl (Or.inr hF)))]


/-! ## The lines of a rewritten text -/

theorem splitLines_ne_nil : ∀ (s : Text), splitLines s ≠ [] := by
  intro s
  induction s with
  | nil => simp [splitLines]
  | cons c s ih =>
    simp only [splitLines]
    split
    · simp
    · split <;> simp

theorem splitLines_line : ∀ (u : Text), '\n' ∉ u → splitLines u = [u] := by
  intro u
  induction u with
  | nil => intro _; rfl
  | cons c u ih =>
    intro h
    have hc : (c == '\n') = false := by
      have : c ≠ '\n' := fun hc => h (by simp [hc])
      simpa using this
    simp only [splitLines, ih (fun hm => h (List.mem_cons_of_mem _ hm)), hc]
    simp

theorem splitLines_cons : ∀ (u v : Text), '\n' ∉ u →
    splitLines (u ++ '\n' :: v) = u :: splitLines v := by
  intro u
  induction u with
  | nil =>
    intro v _
    rcases hs : splitLines v with _ | ⟨l, ls⟩
    · exact absurd hs (splitLines_ne_nil v)
    · simp [splitLines, hs]
  | cons c u ih =>
    intro v h
    have hc : (c == '\n') = false := by
      have : c ≠ '\n' := fun hc => h (by simp [hc])
      simpa using this
    rw [List.cons_append]
    simp only [splitLines, ih v (fun hm => h (List.mem_cons_of_mem _ hm)), hc]
    simp

theorem line_cases : ∀ (T : Text), '\n' ∉ T ∨ ∃ u v, T = u ++ '\n' :: v ∧ '\n' ∉ u := by
  intro T
  induction T with
  | nil => left; simp
  | cons c T ih =>
    by_cases hc : c = '\n'
    · right; exact ⟨[], T, by simp [hc], by simp⟩
    · rcases ih with h | ⟨u, v, hT, hu⟩
      · left
        intro hm
        rcases List.mem_cons.1 hm with h1 | h1
        · exact hc h1.symm
        · exact h h1
      · right
        refine ⟨c :: u, v, by simp [hT], ?_⟩
        intro hm
        rcases List.mem_cons.1 hm with h1 | h1
        · exact hc h1.symm
        · exact hu h1

theorem splitLines_no_nl : ∀ (n : Nat) (T : Text), T.length ≤ n → ∀ l ∈ splitLines T, '\n' ∉ l := by
  intro n
  induction n with
  | zero =>
    intro T hT l hl
    have : T = [] := List.eq_nil_of_length_eq_zero (by omega)
    subst this
    simp [splitLines] at hl
    subst hl
    simp
  | succ n ih =>
    intro T hT l hl
    rcases line_cases T with h | ⟨u, v, rfl, hu⟩
    · rw [splitLines_line T h] at hl
      simp at hl
      subst hl
      exact h
    · rw [splitLines_cons u v hu] at hl
      rcases List.mem_cons.1 hl with h1 | h1
      · subst h1; exact hu
      · exact ih v (by simp at hT; omega) l h1

/-- A rewrite that works line by line maps the lines of a text. -/
theorem splitLines_map (f : Text → Text) (hf1 : ∀ u, '\n' ∉ u → '\n' ∉ f u)
    (hf2 : ∀ u v, '\n' ∉ u → f (u ++ '\n' :: v) = f u ++ '\n' :: f v) :
    ∀ (n : Nat) (T : Text), T.length ≤ n → splitLines (f T) = (splitLines T).map f := by
  intro n
  induction n with
  | zero =>
    intro T hT
    have : T = [] := List.eq_nil_of_length_eq_zero (by omega)
    subst this
    rw [splitLines_line _ (hf1 [] (by simp))]
    simp [splitLines]
  | succ n ih =>
    intro T hT
    rcases line_cases T with h | ⟨u, v, rfl, hu⟩
    · rw [splitLines_line T h, splitLines_line _ (hf1 T h)]
      simp
    · rw [hf2 u v hu, splitLines_cons _ _ (hf1 u hu), splitLines_cons u v hu,
        ih v (by simp at hT; omega)]
      simp

theorem escapeList_no_nl (u : Text) (hu : '\n' ∉ u) : '\n' ∉ escapeList u :=
  rewriteGo_no_nl _ _ _ tail_reIdxList (by decide) (by decide) _ true
    (rewriteGo_no_nl _ _ _ tail_reBareList (by decide) (by decide) u true hu)

theorem escapeValue_no_nl (u : Text) (hu : '\n' ∉ u) : '\n' ∉ escapeValue u :=
  rewriteGo_no_nl _ _ _ tail_reIdxValue (by decide) (by decide) _ true
    (rewriteGo_no_nl _ _ _ tail_reBareValue (by decide) (by decide) u true hu)

theorem escapeList_line_cons (u v : Text) (hu : '\n' ∉ u) :
    escapeList (u ++ '\n' :: v) = escapeList u ++ '\n' :: escapeList v := by
  have n1 : '\n' ∉ replaceAllString reBareList tmplList u :=
    rewriteGo_no_nl _ _ _ tail_reBareList (by decide) (by decide) u true hu
  simp only [escapeList]
  rw [replaceAllString_line_cons _ _ _ tail_reBareList nlFree_reBareList u v hu,
    replaceAllString_line_cons _ _ _ tail_reIdxList nlFree_reIdxList _ _ n1]

theorem escapeValue_line_cons (u v : Text) (hu : '\n' ∉ u) :
    escapeValue (u ++ '\n' :: v) = escapeValue u ++ '\n' :: escapeValue v := by
  have n1 : '\n' ∉ replaceAllString reBareValue tmplValue u :=
    rewriteGo_no_nl _ _ _ tail_reBareValue (by decide) (by decide) u true hu
  simp only [escapeValue]
  rw [replaceAllString_line_cons _ _ _ tail_reBareValue nlFree_reBareValue u v hu,
    replaceAllString_line_cons _ _ _ tail_reIdxValue nlFree_reIdxValue _ _ n1]

theorem splitLines_escapeList (T : Text) :
    splitLines (escapeList T) = (splitLines T).map escapeList :=
  splitLines_map escapeList escapeList_no_nl escapeList_line_cons T.length T (Nat.le_refl _)

theorem splitLines_escapeValue (T : Text) :
    splitLines (escapeValue T) = (splitLines T).map escapeValue :=
  splitLines_map escapeValue escapeValue_no_nl escapeValue_line_cons T.length T (Nat.le_refl _)

theorem quoted_wrap (s : Text) : valueOpen ++ s ++ valueClose = quoted (wrapOpen ++ s ++ wrapClose) := by
  simp [valueOpen_eq, valueClose_eq, quoted, wrapOpen, wrapClose]

theorem bracketed_quoted_wrap (s : Text) :
    listOpen ++ s ++ listClose = bracketed (quoted (wrapOpen ++ s ++ wrapClose)) := by
  simp [listOpen_eq, listClose_eq, valueOpen_eq, valueClose_eq, quoted, bracketed, wrapOpen,
    wrapClose]


/-! ## One-line texts -/

theorem markers_zero_append (y : Text) : markers 0 ++ y = y := by simp [markers]

theorem not_bareLine_of_mem (L : Text) (a : Char) (ha : a ∈ L) (h1 : isSpace a = false)
    (h2 : verbChar a = false) : ¬ IsBareLine L := by
  rintro ⟨w, v, hw, hv, rfl⟩
  rcases List.mem_append.1 ha with h | h
  · rw [hw a h] at h1
    exact Bool.noConfusion h1
  · exact isVerb_not_mem hv a h2 h

theorem not_bareLine_bracketed (p v : Text) : ¬ IsBareLine (p ++ bracketed v) := by
  rintro ⟨w, v2, _, hv2, h⟩
  have h' : w ++ v2 = p ++ ('[' :: v) ++ [']'] := by
    rw [← h]; simp [bracketed]
  exact isVerb_last_ne_close hv2 h'

/-- Escaping and unescaping a line that ends with a verb after a prefix that
does not end with an opening bracket. -/
theorem escape_unescape_verb_line (p v : Text) (hnl : '\n' ∉ p) (hs : ¬ sentinel <:+: p)
    (hv : IsVerb v) (hno : ¬ IsBareLine (p ++ v)) (hbr : ¬ ['['] <:+ p) :
    Escape (p ++ v) = p ++ valueOpen ++ v ++ valueClose ∧ Unescape (Escape (p ++ v)) = p ++ v := by
  have hnl' : '\n' ∉ p ++ v := by
    simp only [List.mem_append, not_or]
    exact ⟨hnl, isVerb_no_nl hv⟩
  obtain ⟨v', hv1, _⟩ := isVerb_head hv
  have hu : ¬ sentinel <:+: p ++ v :=
    sfree_append p v hs (isVerb_sfree hv) (by rw [hv1]; simp)
  have he : Escape (p ++ v) = p ++ valueOpen ++ v ++ valueClose := by
    simp only [Escape]
    rw [escapeBare_line_id _ hnl' hno, escapeList_verb_line p v hnl hv,
      escapeValue_verb_line p v hnl hv]
  refine ⟨he, ?_⟩
  rw [he]
  have := unescape_value p v 0 hu hv hbr
  rwa [markers_zero_append] at this

/-- Escaping and unescaping a line that ends with a bracketed verb. -/
theorem escape_unescape_bracketed_line (p v : Text) (hnl : '\n' ∉ p) (hs : ¬ sentinel <:+: p)
    (hv : IsVerb v) :
    Escape (p ++ bracketed v) = p ++ listOpen ++ bracketed v ++ listClose ∧
    Unescape (Escape (p ++ bracketed v)) = p ++ bracketed v := by
  have hnl' : '\n' ∉ p ++ bracketed v := by
    simp only [List.mem_append, not_or, mem_bracketed]
    exact ⟨hnl, by decide, isVerb_no_nl hv, by decide⟩
  have hu : ¬ sentinel <:+: p ++ bracketed v :=
    sfree_append p _ hs (bracketed_sfree hv) (by simp [bracketed])
  have he : Escape (p ++ bracketed v) = p ++ listOpen ++ bracketed v ++ listClose := by
    simp only [Escape]
    rw [escapeBare_line_id _ hnl' (not_bareLine_bracketed p v),
      escapeList_bracketed_line p v hnl hv, escapeValue_wrapped_list p v hnl hv]
  refine ⟨he, ?_⟩
  rw [he]
  have := unescape_list p v 0 hu hv
  rwa [markers_zero_append] at this

theorem identity_fmtVerbBlock (b : Text) :
    FmtVerbBlock identityBlock b = (Unescape (Escape b), none) :=
  fmtVerbBlock_ok identityBlock b (Escape b) rfl

theorem mem_of_get_some {l : List Text} {i : Nat} {x : Text} (h : l.get? i = some x) : x ∈ l :=
  List.get?_mem h


/-! ## The round trip, line by line -/

/-- Escaping and unescaping, line after line, gives back a text without `@@_@@`
in which no line has an opening bracket right before the verb that ends it. -/
theorem roundtrip_lines : ∀ (s pre T : Text), '\n' ∉ pre → Ins true (pre ++ s) T →
    ¬ sentinel <:+: pre ++ s →
    (∀ u ∈ splitLines (pre ++ s), ¬ ∃ x0 v, IsVerb v ∧ u = x0 ++ '[' :: v) →
    Unescape (escapeValue (escapeList T)) = pre ++ s := by
  intro s
  induction s with
  | nil =>
    intro pre T hpre hI hS hbr
    rw [List.append_nil] at hI hS hbr ⊢
    obtain ⟨j, _, rfl⟩ := ins_last true pre T hI hpre
    obtain ⟨y, hy, he⟩ := escape_line pre j hpre
    rw [he]
    rcases unescape_line pre y j hS hy with h | ⟨x0, v, hv, hx, _⟩
    · exact h
    · exact absurd ⟨x0, v, hv, hx⟩ (hbr pre (by rw [splitLines_line pre hpre]; simp))
  | cons c s ih =>
    intro pre T hpre hI hS hbr
    by_cases hc : c = '\n'
    · subst hc
      obtain ⟨j, T', _, rfl, hI'⟩ := ins_peel true _ T hI pre s rfl hpre
      have hmp : '\n' ∉ markers j ++ pre := by
        intro hm
        rcases List.mem_append.1 hm with hm | hm
        · exact absurd (mem_markers j hm) (by decide)
        · exact hpre hm
      obtain ⟨y, hy, he⟩ := escape_line pre j hpre
      rw [splitLines_cons pre s hpre] at hbr
      have hS' : ¬ sentinel <:+: s := fun h =>
        hS (h.trans ((List.suffix_cons _ s).isInfix.trans (List.suffix_append pre _).isInfix))
      have h2 := ih [] T' (by simp) (by simpa using hI') (by simpa using hS')
        (fun u hu => hbr u (List.mem_cons_of_mem _ (by simpa using hu)))
      rw [← List.append_assoc, escape_line_cons _ _ hmp, he, unescape_line_cons, h2]
      rcases unescape_line pre y j (sfree_left hS) hy with h | ⟨x0, v, hv, hx, _⟩
      · rw [h]; simp
      · exact absurd ⟨x0, v, hv, hx⟩ (hbr pre (by simp))
    · have e : pre ++ c :: s = (pre ++ [c]) ++ s := by simp
      rw [e] at hI hS hbr ⊢
      refine ih (pre ++ [c]) T ?_ hI hS hbr
      intro hm
      rcases List.mem_append.1 hm with hm | hm
      · exact hpre hm
      · have : '\n' = c := by simpa using hm
        exact hc this.symm

/-- Unescaping the escaped form gives back every text without `@@_@@` in which
no line has an opening bracket right before the verb that ends it. -/
theorem unescape_escape_of_no_bracket (c : Text) (hc : ¬ sentinel <:+: c)
    (hbr : ∀ u ∈ splitLines c, ¬ ∃ x0 v, IsVerb v ∧ u = x0 ++ '[' :: v) :
    Unescape (Escape c) = c := by
  have := roundtrip_lines c [] (escapeBare c) (by simp) (by simpa using ins_escapeBare c)
    (by simpa using hc) (by simpa using hbr)
  simp only [List.nil_append] at this
  rw [Escape, this]

/-- The round trip holds for every text without `@@_@@` in which no line has an
opening bracket right before the verb that ends it. -/
theorem roundtrip_without_bracket (b : Text) (hb : ¬ sentinel <:+: b)
    (hbr : ∀ u ∈ splitLines b, ¬ ∃ x0 v, IsVerb v ∧ u = x0 ++ '[' :: v) :
    FmtVerbBlock identityBlock b = (b, none) := by
  rw [identity_fmtVerbBlock, unescape_escape_of_no_bracket b hb hbr]

/-- A line without opening bracket has none before its final verb. -/
theorem no_bracket_line (u : Text) (h : '[' ∉ u) :
    ¬ ∃ x0 v, IsVerb v ∧ u = x0 ++ '[' :: v := by
  rintro ⟨x0, v, _, hu⟩
  exact h (by rw [hu]; simp)

theorem stripBlock_idempotent : Idempotent stripBlock := by
  intro x y h
  have hy : y = x.filter (fun c => c != '\r') := by
    simpa [stripBlock] using (congrArg Prod.fst h).symm
  subst hy
  simp [stripBlock, List.filter_filter]

theorem indentBlock_idempotent : Idempotent indentBlock := by
  intro x y h
  unfold indentBlock at h ⊢
  split at h
  · have hy : y = ' ' :: ' ' :: x := by simpa using (congrArg Prod.fst h).symm
    subst hy
    simp
  · rename_i hx
    have hy : y = x := by simpa using (congrArg Prod.fst h).symm
    subst hy
    simp [hx]

/-- The patterns of `FmtVerbBlock` never match the empty text. -/
theorem matches_nil_false (a : Char) : ∀ (re : Regex), Demands a re → ∀ (b : Bool) (rest : Text),
    ¬ Matches re b [] rest := by
  intro re
  induction re with
  | nil => intro h; exact absurd h (by simp [Demands])
  | cons hd r ih =>
    intro h b rest hm
    cases hd with
    | bol => exact ih h b rest hm.2
    | eol => exact ih h b rest hm.2
    | one p =>
      obtain ⟨c, m', hc, _⟩ := hm
      simp at hc
    | star p =>
      obtain ⟨m1, m2, hm12, _, hm2⟩ := hm
      have h1 : m1 = [] := by
        cases m1 with
        | nil => rfl
        | cons x xs => simp at hm12
      have h2 : m2 = [] := by
        subst h1
        simpa using hm12.symm
      subst h1 h2
      exact ih h _ rest hm2

theorem matchAt_pos (a : Char) (re : Regex) (h : Demands a re) (b : Bool) (s : Text) (n : Nat)
    (hm : matchAt re b s = some n) : 0 < n := by
  obtain ⟨m, rest, _, hn, hM⟩ := matchAt_sound re b s n hm
  cases m with
  | nil => exact absurd hM (matches_nil_false a re h b rest)
  | cons c m => rw [← hn]; simp


/-! ## The claims -/

/-- C1 (defect): on the text `[%s`, an opening bracket followed by one recognized
verb, without sentinel, `FmtVerbBlock` with the identity formatter returns `%s`:
the bracket before the verb is lost, so the round trip does not reproduce the
text. -/
theorem roundtrip_loses_bracket :
    "[%s".toList = '[' :: "%s".toList ∧ IsVerb "%s".toList ∧
    ¬ sentinel <:+: "[%s".toList ∧
    Escape "[%s".toList = "[\"@@_@@ TFMT:%s:TFMT @@_@@\"".toList ∧
    FmtVerbBlock identityBlock "[%s".toList = ("%s".toList, none) ∧
    "%s".toList ≠ "[%s".toList := by
  refine ⟨by decide, Or.inl ⟨'s', by decide, by decide⟩, by decide, by decide, by decide,
    by decide⟩

/-- C2 (defect): in the text made of an empty line and the line ` %s`, the
second line holds only white space and one bare verb, yet the second line of
the escaped text is a quoted literal, not a line comment: the comment marker
went to the empty line above.  The one-line text `%s` does become a comment
line and is restored. -/
theorem bare_line_after_blank_not_comment :
    (splitLines "\n %s".toList).get? 1 = some " %s".toList ∧
    Escape "\n %s".toList = "#@@_@@ TFMT:\n \"@@_@@ TFMT:%s:TFMT @@_@@\"".toList ∧
    (splitLines (Escape "\n %s".toList)).get? 1 =
      some " \"@@_@@ TFMT:%s:TFMT @@_@@\"".toList ∧
    isCommentLine " \"@@_@@ TFMT:%s:TFMT @@_@@\"".toList = false ∧
    isCommentLine (Escape "%s".toList) = true ∧
    FmtVerbBlock identityBlock "%s".toList = ("%s".toList, none) := by
  decide

/-- C5 (counterexample): with a formatter that fails and returns the empty text,
the text `FmtVerbBlock` returns with the error is the empty text, not the
escaped text. -/
theorem error_text_not_escaped :
    FmtVerbBlock failBlock "x = %s".toList = ([], some "syntax error") ∧
    Escape "x = %s".toList = "x = \"@@_@@ TFMT:%s:TFMT @@_@@\"".toList ∧
    (FmtVerbBlock failBlock "x = %s".toList).1 ≠ Escape "x = %s".toList := by
  decide

/-- C5 (amended): `FmtVerbBlock` returns an error exactly when the formatter
returns one on the escaped text, it is that same error, and the text returned
with it is the text the formatter returned with the error. -/
theorem fmtVerbBlock_error {E : Type} (Block : Text → Text × Option E) (b : Text) :
    (FmtVerbBlock Block b).2 = (Block (Escape b)).2 ∧
    (∀ e, (Block (Escape b)).2 = some e →
      FmtVerbBlock Block b = ((Block (Escape b)).1, some e)) := by
  rcases h : Block (Escape b) with ⟨fb, _ | e⟩
  · rw [fmtVerbBlock_ok Block b fb h]; simp
  · rw [fmtVerbBlock_err Block b fb e h]; simp

theorem fmtVerbBlock_error_witness :
    (failBlock (Escape "x = %s".toList)).2 = some "syntax error" ∧
    FmtVerbBlock failBlock "x = %s".toList =
      ((failBlock (Escape "x = %s".toList)).1, some "syntax error") :=
  ⟨rfl, (fmtVerbBlock_error failBlock "x = %s".toList).2 "syntax error" rfl⟩

theorem canonBlock_idempotent : Idempotent canonBlock := by
  intro x y h
  unfold canonBlock at h ⊢
  split at h
  · have hy : y = "x = \"@@_@@ TFMT:%s:TFMT @@_@@\" # c".toList := by
      simpa using (congrArg Prod.fst h).symm
    subst hy; decide
  · have hy : y = "# c".toList := by simpa using (congrArg Prod.fst h).symm
    subst hy; decide

/-- C6 (counterexample): `canonBlock` is idempotent, `FmtVerbBlock` with it
succeeds on `%s` with the result `x = %s # c`, and on that result it returns
`# c`, a different text: the second run changes the block. -/
theorem second_run_changes :
    Idempotent canonBlock ∧
    FmtVerbBlock canonBlock "%s".toList = ("x = %s # c".toList, none) ∧
    FmtVerbBlock canonBlock "x = %s # c".toList = ("# c".toList, none) ∧
    blockChanged (FmtVerbBlock canonBlock "x = %s # c".toList).1 "x = %s # c".toList = true :=
  ⟨canonBlock_idempotent, by decide, by decide, by decide⟩

/-- C6 (amended): for an idempotent formatter and a block `b` on which
`FmtVerbBlock` succeeds with result `r`, when the text the formatter produced
is itself the escaped form of a text `c` that holds no `@@_@@` and has no line
with an opening bracket right before its final verb, then `r` is `c`,
`FmtVerbBlock` on `r` succeeds and returns `r`, and the consumer's test
`fb != b` does not count the block in the second run. -/
theorem fmtVerbBlock_second_run {E : Type} (Block : Text → Text × Option E) (b r c : Text)
    (hI : Idempotent Block) (h1 : FmtVerbBlock Block b = (r, none))
    (hy : (Block (Escape b)).1 = Escape c) (hc : ¬ sentinel <:+: c)
    (hbr : ∀ u ∈ splitLines c, ¬ ∃ x0 v, IsVerb v ∧ u = x0 ++ '[' :: v) :
    r = c ∧ FmtVerbBlock Block r = (r, none) ∧
    blockChanged (FmtVerbBlock Block r).1 r = false := by
  rcases h : Block (Escape b) with ⟨fb, _ | e⟩
  · rw [fmtVerbBlock_ok Block b fb h] at h1
    have hu : Unescape fb = r := congrArg Prod.fst h1
    rw [h] at hy
    have hfb : fb = Escape c := hy
    have hrc : r = c := by
      rw [← hu, hfb]
      exact unescape_escape_of_no_bracket c hc hbr
    have h2 : Block (Escape r) = (fb, none) := by
      rw [hrc, ← hfb]
      exact hI _ _ h
    have h3 : FmtVerbBlock Block r = (r, none) := by
      rw [fmtVerbBlock_ok Block r fb h2, hu]
    exact ⟨hrc, h3, by simp [h3, blockChanged]⟩
  · rw [fmtVerbBlock_err Block b fb e h] at h1
    simp at h1

theorem fmtVerbBlock_second_run_witness :
    (Idempotent stripBlock ∧
      FmtVerbBlock stripBlock "a = 1\r\nx = %s".toList = ("a = 1\nx = %s".toList, none) ∧
      (stripBlock (Escape "a = 1\r\nx = %s".toList)).1 = Escape "a = 1\nx = %s".toList ∧
      ¬ sentinel <:+: "a = 1\nx = %s".toList ∧
      splitLines "a = 1\nx = %s".toList = ["a = 1".toList, "x = %s".toList]) ∧
    ("a = 1\nx = %s".toList = "a = 1\nx = %s".toList ∧
      FmtVerbBlock stripBlock "a = 1\nx = %s".toList = ("a = 1\nx = %s".toList, none) ∧
      blockChanged (FmtVerbBlock stripBlock "a = 1\nx = %s".toList).1 "a = 1\nx = %s".toList
        = false) :=
  ⟨⟨stripBlock_idempotent, by decide, by decide, by decide, by decide⟩,
    fmtVerbBlock_second_run stripBlock "a = 1\r\nx = %s".toList "a = 1\nx = %s".toList
      "a = 1\nx = %s".toList stripBlock_idempotent (by decide) (by decide) (by decide)
      (fun u hu => no_bracket_line u (fun hm => by
        have hs : splitLines "a = 1\nx = %s".toList = ["a = 1".toList, "x = %s".toList] := by
          decide
        rw [hs] at hu
        simp only [List.mem_cons, List.mem_singleton, List.not_mem_nil, or_false] at hu
        rcases hu with rfl | rfl
        · exact absurd hm (by decide)
        · exact absurd hm (by decide)))⟩

/-- With a formatter that indents a leading comment, the indented bare verb
` %s` gains two blanks on every run: after `   %s` the second run gives
`     %s`. -/
theorem second_run_reindents :
    Idempotent indentBlock ∧
    FmtVerbBlock indentBlock " %s".toList = ("   %s".toList, none) ∧
    FmtVerbBlock indentBlock "   %s".toList = ("     %s".toList, none) :=
  ⟨indentBlock_idempotent, by decide, by decide⟩

/-- With the identity formatter the second run also changes the result of the
block `[[%s`: each run loses one bracket. -/
theorem second_run_loses_bracket :
    FmtVerbBlock identityBlock "[[%s".toList = ("[%s".toList, none) ∧
    FmtVerbBlock identityBlock "[%s".toList = ("%s".toList, none) := by
  decide

/-- C9 (counterexample): on the escaped form of `x = [%s]`, the removals with
the generic quoted-value removals first return `x = [[%s]]`, which holds no
`@@_@@`, no `TFMT` and not even a `@`: no fragment of the sentinel is left. -/
theorem reordered_leaves_no_sentinel :
    unescapeGenericFirst (Escape "x = [%s]".toList) = "x = [[%s]]".toList ∧
    ¬ sentinel <:+: unescapeGenericFirst (Escape "x = [%s]".toList) ∧
    ¬ "TFMT".toList <:+: unescapeGenericFirst (Escape "x = [%s]".toList) ∧
    '@' ∉ unescapeGenericFirst (Escape "x = [%s]".toList) := by
  decide

/-- C9 (amended): on the escaped form of `x = [%s]` the removals in the code's
order return `x = [%s]`; with the generic quoted-value removals first, the
outer bracket of each list wrapper (the list wrappers are the generic ones with
`[` before and `]` after) is left in the result, `x = [[%s]]`, which holds no
`@@_@@` and is not `x = [%s]`. -/
theorem unescape_order_matters :
    Escape "x = [%s]".toList = "x = [\"@@_@@ TFMT:[%s]:TFMT @@_@@\"]".toList ∧
    Unescape (Escape "x = [%s]".toList) = "x = [%s]".toList ∧
    listOpen = '[' :: valueOpen ∧ listClose = valueClose ++ [']'] ∧
    unescapeGenericFirst (Escape "x = [%s]".toList) =
      "x = ".toList ++ '[' :: "[%s]".toList ++ [']'] ∧
    ¬ sentinel <:+: unescapeGenericFirst (Escape "x = [%s]".toList) ∧
    unescapeGenericFirst (Escape "x = [%s]".toList) ≠ "x = [%s]".toList := by
  decide

/-- C10: a text without `%` is left unchanged by the eight rewrites, and so, for
every formatter whose text for it holds no `@@_@@`, `FmtVerbBlock` returns exactly
the text and error of the formatter. -/
theorem fmtVerbBlock_verb_free (b : Text) (hb : '%' ∉ b) :
    Escape b = b ∧
    ∀ (E : Type) (Block : Text → Text × Option E), ¬ sentinel <:+: (Block b).1 →
      FmtVerbBlock Block b = Block b := by
  have he := escape_of_no_percent b hb
  refine ⟨he, ?_⟩
  intro E Block hf
  rcases hB : Block b with ⟨fb, _ | e⟩
  · rw [fmtVerbBlock_ok Block b fb (by rw [he]; exact hB)]
    rw [hB] at hf
    rw [unescape_of_no_sentinel fb hf]
  · exact fmtVerbBlock_err Block b fb e (by rw [he]; exact hB)

theorem fmtVerbBlock_verb_free_witness :
    ('%' ∉ "a = 1".toList ∧ ¬ sentinel <:+: (identityBlock "a = 1".toList).1) ∧
    (Escape "a = 1".toList = "a = 1".toList ∧
      FmtVerbBlock identityBlock "a = 1".toList = identityBlock "a = 1".toList) :=
  ⟨⟨by decide, by decide⟩,
    (fmtVerbBlock_verb_free "a = 1".toList (by decide)).1,
    (fmtVerbBlock_verb_free "a = 1".toList (by decide)).2 Unit identityBlock (by decide)⟩

/-- C3: for a one-line text `p ++ v`, where `p` holds no line feed and no `@@_@@`
and ends with `= ` and `v` is a bare or indexed verb, the escaped text is `p`
followed by one quoted string literal that holds the sentinel-wrapped verb, and
`FmtVerbBlock` with the identity formatter returns `p ++ v`. -/
theorem assigned_value_escape (p v : Text) (hnl : '\n' ∉ p) (hs : ¬ sentinel <:+: p)
    (hp : ['=', ' '] <:+ p) (hv : IsVerb v) :
    Escape (p ++ v) = p ++ quoted (wrapOpen ++ v ++ wrapClose) ∧
    FmtVerbBlock identityBlock (p ++ v) = (p ++ v, none) := by
  obtain ⟨p0, rfl⟩ := hp
  have hno : ¬ IsBareLine (p0 ++ ['=', ' '] ++ v) :=
    not_bareLine_of_mem _ '=' (by simp) (by decide) (by decide)
  have hbr : ¬ ['['] <:+ p0 ++ ['=', ' '] := by
    rintro ⟨x0, h⟩
    have h' : (x0 ++ []) ++ ['['] = (p0 ++ ['=']) ++ [' '] := by simpa using h
    have := (List.append_inj' h' rfl).2
    simp at this
  obtain ⟨he, hu⟩ := escape_unescape_verb_line _ v hnl hs hv hno hbr
  refine ⟨?_, ?_⟩
  · rw [he, List.append_assoc, List.append_assoc, ← List.append_assoc valueOpen, quoted_wrap]
  · rw [identity_fmtVerbBlock, hu]

theorem assigned_value_escape_witness :
    ('\n' ∉ "foo = ".toList ∧ ¬ sentinel <:+: "foo = ".toList ∧
      ['=', ' '] <:+ "foo = ".toList ∧ IsVerb "%[2]q".toList) ∧
    (Escape ("foo = ".toList ++ "%[2]q".toList) =
        "foo = ".toList ++ quoted (wrapOpen ++ "%[2]q".toList ++ wrapClose) ∧
      FmtVerbBlock identityBlock ("foo = ".toList ++ "%[2]q".toList) =
        ("foo = ".toList ++ "%[2]q".toList, none)) :=
  have hv : IsVerb "%[2]q".toList := Or.inr ⟨['2'], 'q', by decide, by decide, by decide, by decide⟩
  ⟨⟨by decide, by decide, by decide, hv⟩,
    assigned_value_escape "foo = ".toList "%[2]q".toList (by decide) (by decide) (by decide) hv⟩

/-- C4 (counterexample): the escaped form of `[%s]` is `["@@_@@ TFMT:[%s]:TFMT @@_@@"]`;
the sentinel-wrapped verb `@@_@@ TFMT:%s:TFMT @@_@@` does not occur in it, since
the brackets stand between the sentinels and the verb. -/
theorem list_literal_wraps_brackets :
    Escape (bracketed "%s".toList) = "[\"@@_@@ TFMT:[%s]:TFMT @@_@@\"]".toList ∧
    Escape (bracketed "%s".toList) ≠ bracketed (quoted (wrapOpen ++ "%s".toList ++ wrapClose)) ∧
    ¬ (wrapOpen ++ "%s".toList ++ wrapClose) <:+: Escape (bracketed "%s".toList) := by
  decide

/-- C4 (amended): for a one-line prefix `p` without line feed and `@@_@@` and a
bare or indexed verb `v`, the escaped form of `p ++ [v]` is `p` followed by a
one-element list whose bracket contents are one quoted string literal that
holds the sentinel-wrapped bracketed verb `@@_@@ TFMT:[v]:TFMT @@_@@`, and
`FmtVerbBlock` with the identity formatter returns `p ++ [v]`. -/
theorem list_value_escape (p v : Text) (hnl : '\n' ∉ p) (hs : ¬ sentinel <:+: p)
    (hv : IsVerb v) :
    Escape (p ++ bracketed v) =
      p ++ bracketed (quoted (wrapOpen ++ bracketed v ++ wrapClose)) ∧
    FmtVerbBlock identityBlock (p ++ bracketed v) = (p ++ bracketed v, none) := by
  obtain ⟨he, hu⟩ := escape_unescape_bracketed_line p v hnl hs hv
  refine ⟨?_, ?_⟩
  · rw [he, List.append_assoc, List.append_assoc, ← List.append_assoc listOpen,
      bracketed_quoted_wrap]
  · rw [identity_fmtVerbBlock, hu]

theorem list_value_escape_witness :
    ('\n' ∉ "x = ".toList ∧ ¬ sentinel <:+: "x = ".toList ∧ IsVerb "%[2]q".toList) ∧
    (Escape ("x = ".toList ++ bracketed "%[2]q".toList) =
        "x = ".toList ++ bracketed (quoted (wrapOpen ++ bracketed "%[2]q".toList ++ wrapClose)) ∧
      FmtVerbBlock identityBlock ("x = ".toList ++ bracketed "%[2]q".toList) =
        ("x = ".toList ++ bracketed "%[2]q".toList, none)) :=
  have hv : IsVerb "%[2]q".toList := Or.inr ⟨['2'], 'q', by decide, by decide, by decide, by decide⟩
  ⟨⟨by decide, by decide, hv⟩,
    list_value_escape "x = ".toList "%[2]q".toList (by decide) (by decide) hv⟩

/-- C7: for every text without `@@_@@`, the result of `FmtVerbBlock` with the
identity formatter, which is `Unescape (Escape b)`, holds no `@@_@@`. -/
theorem no_sentinel_left (b : Text) (hb : ¬ sentinel <:+: b) :
    FmtVerbBlock identityBlock b = (Unescape (Escape b), none) ∧
    ¬ sentinel <:+: (FmtVerbBlock identityBlock b).1 := by
  refine ⟨identity_fmtVerbBlock b, ?_⟩
  rw [identity_fmtVerbBlock]
  exact unescape_escape_sfree b [] (escapeBare b) (by simp) (by simpa using ins_escapeBare b)
    (by simpa using hb)

theorem no_sentinel_left_witness :
    ¬ sentinel <:+: "x = [%s]\n  %[1]d\ny = [%s".toList ∧
    (FmtVerbBlock identityBlock "x = [%s]\n  %[1]d\ny = [%s".toList =
        (Unescape (Escape "x = [%s]\n  %[1]d\ny = [%s".toList), none) ∧
      ¬ sentinel <:+: (FmtVerbBlock identityBlock "x = [%s]\n  %[1]d\ny = [%s".toList).1) :=
  ⟨by decide, no_sentinel_left "x = [%s]\n  %[1]d\ny = [%s".toList (by decide)⟩

/-- C8 (counterexample): the assigned-value rewrites re-match the verb of the
comment line the bare-line rewrites produce: the escaped form of `%s` is
`#@@_@@ TFMT:"@@_@@ TFMT:%s:TFMT @@_@@"`, not `#@@_@@ TFMT:%s`. -/
theorem comment_line_rematched :
    escapeBare "%s".toList = "#@@_@@ TFMT:%s".toList ∧
    escapeList (escapeBare "%s".toList) = "#@@_@@ TFMT:%s".toList ∧
    Escape "%s".toList = "#@@_@@ TFMT:\"@@_@@ TFMT:%s:TFMT @@_@@\"".toList ∧
    Escape "%s".toList ≠ "#@@_@@ TFMT:%s".toList ∧
    Escape "%[2]q".toList ≠ "#@@_@@ TFMT:%[2]q".toList := by
  decide

/-- C8 (amended): for every text `b` and every line of the output of the
bare-line rewrites of the form `#@@_@@ TFMT:` then a text `w` then a verb `v`,
the list rewrites leave that line unchanged, and the assigned-value rewrites
re-match the verb and wrap it: the same-numbered line of the escaped text is
`#@@_@@ TFMT:` then `w` then the quoted literal that holds the sentinel-wrapped
verb.  In particular the escaped forms of `%s` and `%[2]q` are
`#@@_@@ TFMT:"@@_@@ TFMT:%s:TFMT @@_@@"` and `#@@_@@ TFMT:"@@_@@ TFMT:%[2]q:TFMT @@_@@"`. -/
theorem comment_line_rewrapped (b : Text) (i : Nat) (w v : Text)
    (hline : (splitLines (escapeBare b)).get? i = some (commentOpen ++ w ++ v))
    (hv : IsVerb v) :
    (splitLines (escapeList (escapeBare b))).get? i = some (commentOpen ++ w ++ v) ∧
    (splitLines (Escape b)).get? i =
      some (commentOpen ++ w ++ quoted (wrapOpen ++ v ++ wrapClose)) ∧
    Escape "%s".toList = "#@@_@@ TFMT:\"@@_@@ TFMT:%s:TFMT @@_@@\"".toList ∧
    Escape "%[2]q".toList = "#@@_@@ TFMT:\"@@_@@ TFMT:%[2]q:TFMT @@_@@\"".toList := by
  have hmem := mem_of_get_some hline
  have hnl := splitLines_no_nl _ _ (Nat.le_refl _) _ hmem
  have hnl' : '\n' ∉ commentOpen ++ w := fun h => hnl (List.mem_append_left _ h)
  have h1 : (splitLines (escapeList (escapeBare b))).get? i = some (commentOpen ++ w ++ v) := by
    rw [List.get?_eq_getElem?] at hline ⊢
    rw [splitLines_escapeList, List.getElem?_map, hline]
    simp only [Option.map_some']
    rw [escapeList_verb_line _ v hnl' hv]
  refine ⟨h1, ?_, by decide, by decide⟩
  simp only [Escape]
  rw [List.get?_eq_getElem?] at h1 ⊢
  rw [splitLines_escapeValue, List.getElem?_map, h1]
  simp only [Option.map_some']
  rw [escapeValue_verb_line _ v hnl' hv, List.append_assoc, List.append_assoc,
    ← List.append_assoc valueOpen, quoted_wrap]

theorem comment_line_rewrapped_witness :
    ((splitLines (escapeBare "x = 1\n  %d".toList)).get? 1 =
        some (commentOpen ++ "  ".toList ++ "%d".toList) ∧ IsVerb "%d".toList) ∧
    ((splitLines (escapeList (escapeBare "x = 1\n  %d".toList))).get? 1 =
        some (commentOpen ++ "  ".toList ++ "%d".toList) ∧
      (splitLines (Escape "x = 1\n  %d".toList)).get? 1 =
        some (commentOpen ++ "  ".toList ++ quoted (wrapOpen ++ "%d".toList ++ wrapClose)) ∧
      Escape "%s".toList = "#@@_@@ TFMT:\"@@_@@ TFMT:%s:TFMT @@_@@\"".toList ∧
      Escape "%[2]q".toList = "#@@_@@ TFMT:\"@@_@@ TFMT:%[2]q:TFMT @@_@@\"".toList) :=
  have hv : IsVerb "%d".toList := Or.inl ⟨'d', by decide, by decide⟩
  ⟨⟨by decide, hv⟩,
    comment_line_rewrapped "x = 1\n  %d".toList 1 "  ".toList "%d".toList (by decide) hv⟩


end Terrafmt
